import Mathlib

/-
  Verification of the ChaLearn video-classification pipeline script
  (03a-chalearn/chalearn.py).

  Shallow embedding conventions:
  * A file-system path is the list of its slash-separated components
    (components never contain a slash), so the string concatenations
    with "/" performed by the script become list appends, and
    s.split("/") is the identity on the representation.
  * The file system is explicit state: a list of (path, content) pairs
    for regular files plus a list of directory paths.  os.path.exists
    consults both; os.makedirs adds a directory and its ancestors.
  * External tools are oracles: mediainfo is a duration function,
    ffmpeg is a function giving the number of frames written for a
    video (the frames are written under the printf pattern
    frame-%03d.jpg, numbered from 1, which is what ffmpeg does with
    the pattern passed at line 72), and the pretrained ConvNet is a
    per-frame feature function (keras applies the model to each row of
    the input batch independently).
  * Numeric array entries are modelled as rationals; python floats are
    not modelled further, the claims only use ordering and counting.
  * Exceptions: a stage returns Except (Err × St) St, the error case
    carrying the state of the world at the moment the exception is
    raised.  ValueError, AssertionError and ZeroDivisionError are
    distinguished.
  * python sorted() is an ascending stable sort by codepoint-wise
    lexicographic string comparison; it is modelled by a structural
    insertion sort with the same comparator (stable ascending sorts
    with the same total preorder produce the same output list).
-/

namespace Chalearn

/-- A path, as the list of its slash-separated components. -/
abbrev Path := List String

/-- Exception kinds raised by the script. -/
inductive Err where
  | valueError
  | assertionError
  | zeroDivisionError
deriving DecidableEq, Repr

/-- A numpy array: a shape and the flat list of entries. -/
structure NpArr where
  shape : List Nat
  data : List ℚ
deriving DecidableEq, Repr

/-- Contents of a regular file: a frame image (content abstracted to a
tag) or a saved numpy array. -/
inductive Blob where
  | jpg (img : String)
  | npy (arr : NpArr)
deriving DecidableEq, Repr

/-- The file system: regular files with contents, and directories. -/
structure FS where
  files : List (Path × Blob)
  dirs : List Path
deriving DecidableEq, Repr

/-- os.path.exists: true if a file or a directory is at the path. -/
def FS.pathExists (fs : FS) (p : Path) : Bool :=
  fs.files.any (fun e => e.1 == p) || fs.dirs.any (fun d => d == p)

/-- The nonempty ancestors of a path, the path itself included. -/
def ancestors (p : Path) : List Path :=
  (List.range p.length).map (fun i => p.take (i + 1))

/-- os.makedirs(p, exist_ok=True): create the directory and every
missing ancestor. -/
def FS.makedirs (fs : FS) (p : Path) : FS :=
  { fs with dirs := ancestors p ++ fs.dirs }

/-- Write a file, replacing any file previously at the path. -/
def FS.writeFile (fs : FS) (p : Path) (b : Blob) : FS :=
  { fs with files := (p, b) :: fs.files.filter (fun e => !(e.1 == p)) }

/-- Read the contents of the file at a path, if one is there. -/
def FS.readFile (fs : FS) (p : Path) : Option Blob :=
  (fs.files.find? (fun e => e.1 == p)).map (fun e => e.2)

/-- Whether p is strictly inside the directory base. -/
def underDir (base p : Path) : Bool :=
  base.length < p.length && p.take base.length == base

/-- If p is a direct child of d, its file name. -/
def childName (d p : Path) : Option String :=
  if p.dropLast == d then p.getLast? else none

/-- Whether the string s ends with the suffix suf. -/
def strEndsWithB (s suf : String) : Bool :=
  suf.data.isSuffixOf s.data

/-- Codepoint-wise lexicographic comparison of character lists; the
order python uses on strings. -/
def lexLtB : List Char → List Char → Bool
  | [], [] => false
  | [], _ :: _ => true
  | _ :: _, [] => false
  | a :: as, b :: bs => if a < b then true else if b < a then false else lexLtB as bs

/-- The python string order s <= t. -/
def strLeB (s t : String) : Bool := !(lexLtB t.data s.data)

/-- Insert into a sorted list in front of the first not-smaller
element. -/
def insertLe {α : Type} (le : α → α → Bool) (a : α) : List α → List α
  | [] => [a]
  | b :: bs => if le a b then a :: b :: bs else b :: insertLe le a bs

/-- Stable ascending insertion sort; models python sorted(). -/
def insSort {α : Type} (le : α → α → Bool) : List α → List α
  | [] => []
  | x :: xs => insertLe le x (insSort le xs)

/-- The distinct names of the .jpg files that are direct children of
the directory d; what glob(d + "/*.jpg") matches. -/
def jpgNames (fs : FS) (d : Path) : List String :=
  (((fs.files.map Prod.fst).filterMap (childName d)).filter
    (fun nm => strEndsWithB nm ".jpg")).dedup

/-- len(glob.glob(sDir + "/*.jpg")): the number of .jpg frame files in
a directory (line 77). -/
def countJpg (fs : FS) (d : Path) : Nat := (jpgNames fs d).length

/-- sorted(glob.glob(os.path.join(sFrameDir, dir, "*.jpg"))) (line
124), reduced to the file names: the matched paths share the directory
proper prefix, so sorting the full path strings orders them by
name. -/
def sortedJpgNames (fs : FS) (d : Path) : List String :=
  insSort strLeB (jpgNames fs d)

/-- glob.glob(sVideoDir + "/*/*/*.avi") (line 42): the distinct files
exactly three levels under the base whose name ends in .avi. -/
def globAvi (fs : FS) (base : Path) : List Path :=
  ((fs.files.map Prod.fst).filter (fun p =>
    p.length == base.length + 3 && p.take base.length == base &&
      strEndsWithB (p.getLastD "") ".avi")).dedup

/-- glob.glob("*/*/*") after os.chdir(sFrameDir) (lines 98-99): the
distinct entries (files or directories) exactly three levels under the
base, as paths relative to it. -/
def glob3 (fs : FS) (base : Path) : List Path :=
  ((fs.files.map Prod.fst ++ fs.dirs).filterMap (fun p =>
    if p.length == base.length + 3 && p.take base.length == base
    then some (p.drop base.length) else none)).dedup

/-- s.split("/")[-2]: the second-to-last path component (lines 48 and
105). -/
def labelOf (p : Path) : String := p.getD (p.length - 2) ""

/-- The class restriction of lines 46-51 and 103-108: when nClasses is
given, keep the videos whose label is among the first nClasses labels
in ascending sorted order of the distinct labels found. -/
def restrictClasses (nClasses : Option Nat) (vids : List Path) : List Path :=
  match nClasses with
  | none => vids
  | some n =>
    let liClasses := (insSort strLeB (vids.map labelOf).dedup).take n
    vids.filter (fun v => liClasses.contains (labelOf v))

/-- The decimal digits of a number, most significant first. -/
def natDigits (n : Nat) : List Nat :=
  if h : n < 10 then [n]
  else natDigits (n / 10) ++ [n % 10]
decreasing_by exact Nat.div_lt_self (by omega) (by omega)

/-- The C format %03d used in the ffmpeg output pattern (line 72):
zero-pad to width 3, plain decimal beyond 999. -/
def pad3 (n : Nat) : String :=
  if n < 1000
  then ⟨[Nat.digitChar (n / 100), Nat.digitChar (n / 10 % 10), Nat.digitChar (n % 10)]⟩
  else ⟨(natDigits n).map Nat.digitChar⟩

/-- The name ffmpeg gives the i-th extracted frame (counting from 1)
under the pattern frame-%03d.jpg. -/
def frameJpg (i : Nat) : String := "frame-" ++ pad3 i ++ ".jpg"

/-- s.split(".")[0] (line 60): the characters before the first dot. -/
def stemOf (s : String) : String := ⟨s.data.takeWhile (fun c => !(c == '.'))⟩

/-- Lines 58-63: reject a video path with fewer than 4 components,
otherwise form the per-video frame directory
sFrameDir/path[-3]/path[-2]/stem(path[-1]). -/
def frameDirOfVideo (sFrameDir : Path) (p : Path) : Except Err Path :=
  if p.length < 4 then .error .valueError
  else .ok (sFrameDir ++
    [p.getD (p.length - 3) "", p.getD (p.length - 2) "",
     stemOf (p.getD (p.length - 1) "")])

/-- The external transcoding tools, as oracles: mediainfo duration in
milliseconds, the number of frames ffmpeg writes for a video, and the
content of each written frame. -/
structure Transcoder where
  durationMs : Path → Nat
  nFrames : Path → Nat
  content : Path → Nat → String

/-- The effect of the ffmpeg call of lines 72-74: write frames
1..k of the video into the directory under the pattern frame-%03d.jpg
(the -y flag overwrites existing files). -/
def writeFrames (fs : FS) (d : Path) (oT : Transcoder) (v : Path) (k : Nat) : FS :=
  (List.range' 1 k).foldl
    (fun acc i => acc.writeFile (d ++ [frameJpg i]) (.jpg (oT.content v i))) fs

/-- State threaded through the video2frames loop: the file system, the
counter of line 53, and the processed (video, frame directory) pairs. -/
structure VSt where
  fs : FS
  nCounter : Nat
  proc : List (Path × Path)
deriving Repr

/-- One iteration of the video2frames loop (lines 55-81). -/
def v2fStep (sFrameDir : Path) (nFramesNorm : Nat) (oT : Transcoder)
    (st : VSt) (v : Path) : Except (Err × VSt) VSt :=
  match frameDirOfVideo sFrameDir v with
  | .error e => .error (e, st)
  | .ok sDir =>
    let fs1 := st.fs.makedirs sDir
    if oT.durationMs v == 0 then
      -- nFramesNorm / fVideoSec with fVideoSec = 0.0 (line 69)
      .error (.zeroDivisionError, { st with fs := fs1 })
    else
      let fs2 := writeFrames fs1 sDir oT v (oT.nFrames v)
      if countJpg fs2 sDir == nFramesNorm then
        .ok { fs := fs2, nCounter := st.nCounter + 1,
              proc := st.proc ++ [(v, sDir)] }
      else .error (.valueError, { st with fs := fs2 })

/-- The video2frames loop over the located videos. -/
def v2fLoop (sFrameDir : Path) (nFramesNorm : Nat) (oT : Transcoder)
    (st : VSt) : List Path → Except (Err × VSt) VSt
  | [] => .ok st
  | v :: vs =>
    match v2fStep sFrameDir nFramesNorm oT st v with
    | .ok st1 => v2fLoop sFrameDir nFramesNorm oT st1 vs
    | .error e => .error e

/-- video2frames (lines 35-87): refuse an existing output directory,
locate the videos, restrict the classes, then extract frames from each
video in turn. -/
def video2frames (fs : FS) (sVideoDir sFrameDir : Path) (nFramesNorm : Nat)
    (nClasses : Option Nat) (oT : Transcoder) : Except (Err × VSt) VSt :=
  let st0 : VSt := ⟨fs, 0, []⟩
  if fs.pathExists sFrameDir then .error (.valueError, st0)
  else v2fLoop sFrameDir nFramesNorm oT st0
    (restrictClasses nClasses (globAvi fs sVideoDir))

/-- The pretrained ConvNet of the feature stage, as an oracle: the
flattened per-frame feature length, and the map from one preprocessed
frame image to its features (keras model.predict applies the network
to each element of the batch independently). -/
structure ConvNet where
  m : Nat
  f : String → List ℚ

/-- oCNN.keModel.predict on the stacked frame array (lines 138-139):
one feature row per input frame. -/
def cnnPredict (c : ConvNet) (imgs : List String) : NpArr :=
  ⟨[imgs.length, c.m], (imgs.map c.f).flatten⟩

/-- numpy reshape(n, -1) (line 142): infer the second dimension; raise
ValueError when the total size is not a positive multiple of n. -/
def reshape2 (n : Nat) (a : NpArr) : Except Err NpArr :=
  if 0 < n ∧ n ∣ a.data.length
  then .ok ⟨[n, a.data.length / n], a.data⟩
  else .error .valueError

/-- os.path.join(sFeatureDir, rel + ".npy") (line 116) for the
relative frame directory rel of a video. -/
def featPathOf (sFeatureDir : Path) (rel : Path) : Path :=
  sFeatureDir ++ rel.dropLast ++ [rel.getLastD "" ++ ".npy"]

/-- keras.preprocessing.image.load_img (line 133): the content of the
image file at the path (resizing is folded into the feature oracle). -/
def readImgD (fs : FS) (p : Path) : String :=
  match fs.readFile p with
  | some (.jpg s) => s
  | _ => ""

/-- State threaded through the frames2features loop: the file system,
the counter, the videos whose features were computed and saved, the
videos skipped because their feature file already existed (the print
of line 119), and for each computed video the frame files fed to the
ConvNet, in the order they were loaded. -/
structure FSt where
  fs : FS
  nCounter : Nat
  proc : List Path
  skipped : List Path
  reads : List (Path × List Path)
deriving Repr

/-- One iteration of the frames2features loop (lines 113-146). -/
def f2fStep (sFrameDir sFeatureDir : Path) (oCNN : ConvNet) (nFramesNorm : Nat)
    (st : FSt) (rel : Path) : Except (Err × FSt) FSt :=
  let sFeaturePath := featPathOf sFeatureDir rel
  if st.fs.pathExists sFeaturePath then
    .ok { st with skipped := st.skipped ++ [rel] }
  else
    let fs1 := st.fs.makedirs sFeaturePath.dropLast
    let names := sortedJpgNames fs1 (sFrameDir ++ rel)
    if names.length == nFramesNorm then
      let framePaths := names.map (fun nm => sFrameDir ++ rel ++ [nm])
      let imgs := framePaths.map (readImgD fs1)
      let st1 := { st with fs := fs1, reads := st.reads ++ [(rel, framePaths)] }
      match reshape2 nFramesNorm (cnnPredict oCNN imgs) with
      | .error e => .error (e, st1)
      | .ok arr =>
        .ok { fs := fs1.writeFile sFeaturePath (.npy arr),
              nCounter := st.nCounter + 1,
              proc := st.proc ++ [rel],
              skipped := st.skipped,
              reads := st1.reads }
    else .error (.assertionError, { st with fs := fs1 })

/-- The frames2features loop over the located frame directories. -/
def f2fLoop (sFrameDir sFeatureDir : Path) (oCNN : ConvNet) (nFramesNorm : Nat)
    (st : FSt) : List Path → Except (Err × FSt) FSt
  | [] => .ok st
  | rel :: rest =>
    match f2fStep sFrameDir sFeatureDir oCNN nFramesNorm st rel with
    | .ok st1 => f2fLoop sFrameDir sFeatureDir oCNN nFramesNorm st1 rest
    | .error e => .error e

/-- frames2features (lines 90-147): refuse an existing output
directory, locate the frame directories, restrict the classes, then
compute and save the features of each video in turn, skipping a video
whose feature file already exists. -/
def frames2features (fs : FS) (sFrameDir sFeatureDir : Path) (oCNN : ConvNet)
    (nFramesNorm : Nat) (nClasses : Option Nat) : Except (Err × FSt) FSt :=
  let st0 : FSt := ⟨fs, 0, [], [], []⟩
  if fs.pathExists sFeatureDir then .error (.valueError, st0)
  else f2fLoop sFrameDir sFeatureDir oCNN nFramesNorm st0
    (restrictClasses nClasses (glob3 fs sFrameDir))

/-- The state a run ends in, whether it returned or raised. -/
def resSt : Except (Err × FSt) FSt → FSt
  | .ok s => s
  | .error (_, s) => s

/-- The state a video2frames run ends in, whether it returned or
raised. -/
def resVSt : Except (Err × VSt) VSt → VSt
  | .ok s => s
  | .error (_, s) => s

/-- Modelled from the spec: the VideoFeatures loader of the external
deeplearning module (not under src/) reads the feature files of a
directory; per the spec, the stages following feature extraction
"read from disk" the per-video feature sequences, i.e. the .npy
files under the given directory. -/
def videoFeatureFiles (fs : FS) (dir : Path) : List Path :=
  ((fs.files.map Prod.fst).filter (fun p =>
    underDir dir p && strEndsWithB (p.getLastD "") ".npy")).dedup

/-- The files train (lines 154-158) reads: the feature files of the
train and val subdirectories of sFeatureDir. -/
def trainReads (fs : FS) (sFeatureDir : Path) : List Path :=
  videoFeatureFiles fs (sFeatureDir ++ ["train"]) ++
    videoFeatureFiles fs (sFeatureDir ++ ["val"])

/-- The files evaluate (line 205) and predict (line 227) read: the
feature files of the given directory. -/
def predictReads (fs : FS) (sFeatureDir : Path) : List Path :=
  videoFeatureFiles fs sFeatureDir

/-- The trained recurrent network and the class table, as oracles: the
map from one feature sequence to the class probabilities (model.predict
is row-independent), and the sClass column of the class table indexed
by class number. -/
structure RNet where
  net : List ℚ → List ℚ
  classTable : List String

/-- numpy argmax over one row: the first index holding the maximal
entry. -/
def argmaxIdx : List ℚ → Nat
  | [] => 0
  | [_] => 0
  | x :: y :: rest =>
    let j := argmaxIdx (y :: rest)
    if x < (y :: rest).getD j 0 then j + 1 else 0

/-- np.mean of a boolean vector: the fraction of true entries. -/
def meanB (l : List Bool) : ℚ := (l.count true : ℚ) / (l.length : ℚ)

/-- The class names predict assigns (lines 231-242): argmax each
probability row, then look the class numbers up in the class table. -/
def predictedNames (oRNN : RNet) (rows : List (List ℚ)) : List String :=
  ((rows.map oRNN.net).map argmaxIdx).map (fun i => oRNN.classTable.getD i "")

/-- The accuracy predict reports (line 242): the mean over videos of
the indicator that the predicted class name equals the ground-truth
label. -/
def predictAccuracy (oRNN : RNet) (labels : List String)
    (rows : List (List ℚ)) : ℚ :=
  meanB (labels.zipWith (fun l nm => l == nm) (predictedNames oRNN rows))

/-- The state invariant of a frame extraction: every file under the
output directory is a frame file frame-%03d.jpg, numbered between 1 and
nFramesNorm, lying in a per-video directory three levels below.  It
holds of the empty output directory a run starts from and is kept by
every ffmpeg call. -/
def framesOnly (fd : Path) (n : Nat) (fs : FS) : Prop :=
  ∀ p ∈ fs.files.map Prod.fst, underDir fd p = true →
    ∃ d i, p = d ++ [frameJpg i] ∧ 1 ≤ i ∧ i ≤ n ∧ d.length = fd.length + 3

/-! Concrete fixtures: a small video collection, deterministic oracles,
and the states of a two-stage pipeline run over them. -/

/-- A videos directory with two labelled clips. -/
def exFS0 : FS :=
  ⟨[(["vids", "train", "c1", "v1.avi"], .jpg "x"),
    (["vids", "train", "c2", "v2.avi"], .jpg "y")], [["vids"]]⟩

def exVideoDir : Path := ["vids"]

def exFrameDir : Path := ["data", "frame"]

def exFeatDir : Path := ["data", "feat"]

/-- Deterministic transcoder: every video lasts one second and yields
two frames. -/
def exTrans : Transcoder := ⟨fun _ => 1000, fun _ => 2, fun _ i => "img" ++ pad3 i⟩

/-- Deterministic ConvNet with an empty feature vector per frame. -/
def exCNN : ConvNet := ⟨0, fun _ => []⟩

def exRun1 : Except (Err × VSt) VSt :=
  video2frames exFS0 exVideoDir exFrameDir 2 none exTrans

def exRun2 : Except (Err × FSt) FSt :=
  frames2features (resVSt exRun1).fs exFrameDir exFeatDir exCNN 2 none

/-- A state as left behind by an interrupted earlier feature run: the
frames of two videos are on disk and the feature file of the first
video already exists, while the feature directory itself does not. -/
def exFS3 : FS :=
  ⟨[(["data", "frame", "train", "c1", "v1", "frame-001.jpg"], .jpg "a"),
    (["data", "frame", "train", "c1", "v1", "frame-002.jpg"], .jpg "b"),
    (["data", "frame", "train", "c2", "v2", "frame-001.jpg"], .jpg "c"),
    (["data", "frame", "train", "c2", "v2", "frame-002.jpg"], .jpg "d"),
    (["data", "feat", "train", "c1", "v1.npy"], .npy ⟨[2, 0], []⟩)],
   [["data", "frame", "train", "c1", "v1"], ["data", "frame", "train", "c2", "v2"]]⟩

def exRun3 : Except (Err × FSt) FSt :=
  frames2features exFS3 exFrameDir exFeatDir exCNN 2 none

/-- A state whose only entry is an existing output directory. -/
def exFSX : FS := ⟨[], [["out"]]⟩

/-- A two-class recurrent net fixture: the identity scorer over
two-entry rows and a two-name class table. -/
def exRNN : RNet := ⟨fun r => r, ["a", "b"]⟩

def exLabels : List String := ["b", "a"]

def exRows : List (List ℚ) := [[1, 2], [3, 1]]

/-- A frame directory holding frames number 999 and 1000, as a
video2frames run with nFramesNorm of at least 1000 produces. -/
def cexFS : FS :=
  ⟨[(["d", "frame-999.jpg"], .jpg "a"), (["d", "frame-1000.jpg"], .jpg "b")], []⟩

/-! Basic file-system lemmas. -/

theorem pathExists_iff (fs : FS) (p : Path) :
    fs.pathExists p = true ↔ p ∈ fs.files.map Prod.fst ∨ p ∈ fs.dirs := by
  unfold FS.pathExists
  simp only [Bool.or_eq_true, List.any_eq_true, beq_iff_eq, List.mem_map]
  constructor
  · rintro (⟨e, he, h1⟩ | ⟨d, hd, h1⟩)
    · exact Or.inl ⟨e, he, h1⟩
    · exact Or.inr (h1 ▸ hd)
  · rintro (⟨e, he, h1⟩ | hd)
    · exact Or.inl ⟨e, he, h1⟩
    · exact Or.inr ⟨p, hd, rfl⟩

theorem files_makedirs (fs : FS) (p : Path) : (fs.makedirs p).files = fs.files := rfl

theorem dirs_writeFile (fs : FS) (p : Path) (b : Blob) :
    (fs.writeFile p b).dirs = fs.dirs := rfl

theorem mem_keys_writeFile {fs : FS} {p q : Path} {b : Blob} :
    q ∈ (fs.writeFile p b).files.map Prod.fst ↔
      q = p ∨ q ∈ fs.files.map Prod.fst := by
  unfold FS.writeFile
  simp only [List.map_cons, List.mem_cons, List.mem_map, List.mem_filter,
    Bool.not_eq_eq_eq_not, Bool.not_true, beq_eq_false_iff_ne, ne_eq]
  constructor
  · rintro (h | ⟨e, ⟨he, _⟩, h2⟩)
    · exact Or.inl h
    · exact Or.inr ⟨e, he, h2⟩
  · rintro (h | ⟨e, he, h2⟩)
    · exact Or.inl h
    · by_cases hq : q = p
      · exact Or.inl hq
      · exact Or.inr ⟨e, ⟨he, by rw [h2]; exact hq⟩, h2⟩

theorem writeFile_files_of_fresh {fs : FS} {p : Path} {b : Blob}
    (h : p ∉ fs.files.map Prod.fst) :
    (fs.writeFile p b).files = (p, b) :: fs.files := by
  unfold FS.writeFile
  have : fs.files.filter (fun e => !(e.1 == p)) = fs.files := by
    apply List.filter_eq_self.mpr
    intro e he
    simp only [Bool.not_eq_eq_eq_not, Bool.not_true, beq_eq_false_iff_ne, ne_eq]
    intro hep
    exact h (List.mem_map.mpr ⟨e, he, hep⟩)
  rw [this]

theorem find?_filter_comm {α : Type} (l : List α) (q f : α → Bool)
    (h : ∀ x, q x = true → f x = true) :
    (l.filter f).find? q = l.find? q := by
  induction l with
  | nil => rfl
  | cons a as ih =>
    by_cases hq : q a = true
    · rw [List.filter_cons, h a hq]
      simp only [if_true, List.find?_cons_of_pos _ hq]
    · rw [List.filter_cons]
      by_cases hf : f a = true
      · rw [hf]
        simp only [if_true,
          List.find?_cons_of_neg _ (by simpa using hq),
          List.find?_cons_of_neg _ (by simpa using hq)]
        exact ih
      · simp only [Bool.not_eq_true] at hf
        rw [hf]
        simp only [Bool.false_eq_true, if_false,
          List.find?_cons_of_neg _ (by simpa using hq)]
        exact ih

theorem readFile_writeFile_self (fs : FS) (p : Path) (b : Blob) :
    (fs.writeFile p b).readFile p = some b := by
  unfold FS.readFile FS.writeFile
  simp [List.find?_cons_of_pos]

theorem find?_key_cons_ne (l : List (Path × Blob)) (p q : Path) (b : Blob)
    (h : q ≠ p) :
    List.find? (fun e => e.1 == q) ((p, b) :: l) =
      List.find? (fun e => e.1 == q) l := by
  apply List.find?_cons_of_neg
  simp only [beq_iff_eq]
  exact fun hpq => h hpq.symm

theorem readFile_writeFile_ne {fs : FS} {p q : Path} {b : Blob} (h : q ≠ p) :
    (fs.writeFile p b).readFile q = fs.readFile q := by
  unfold FS.readFile FS.writeFile
  dsimp only
  rw [find?_key_cons_ne _ _ _ _ h]
  rw [find?_filter_comm]
  intro e he
  simp only [beq_iff_eq] at he
  simp [he, h]

theorem readFile_makedirs (fs : FS) (p d : Path) :
    (fs.makedirs d).readFile p = fs.readFile p := rfl

/-! Direct children and .jpg names. -/

theorem childName_eq_some {d p : Path} {nm : String} :
    childName d p = some nm ↔ p = d ++ [nm] := by
  unfold childName
  by_cases h : p.dropLast = d
  · simp only [h, beq_self_eq_true, if_true]
    constructor
    · intro hl
      have := List.dropLast_append_getLast? nm hl
      rw [h] at this
      exact this.symm
    · intro hp
      rw [hp]
      exact List.getLast?_concat _
  · have hb : (p.dropLast == d) = false := by simpa using h
    rw [hb]
    simp only [Bool.false_eq_true, if_false]
    constructor
    · intro hc
      exact absurd hc (by simp)
    · intro hp
      rw [hp, List.dropLast_concat] at h
      exact absurd rfl h

theorem mem_jpgNames {fs : FS} {d : Path} {nm : String} :
    nm ∈ jpgNames fs d ↔
      (d ++ [nm]) ∈ fs.files.map Prod.fst ∧ strEndsWithB nm ".jpg" = true := by
  unfold jpgNames
  rw [List.mem_dedup, List.mem_filter, List.mem_filterMap]
  constructor
  · rintro ⟨⟨p, hp, hcn⟩, hjpg⟩
    exact ⟨childName_eq_some.mp hcn ▸ hp, hjpg⟩
  · rintro ⟨hp, hjpg⟩
    exact ⟨⟨d ++ [nm], hp, childName_eq_some.mpr rfl⟩, hjpg⟩

theorem jpgNames_nodup (fs : FS) (d : Path) : (jpgNames fs d).Nodup :=
  List.nodup_dedup _

theorem jpgNames_makedirs (fs : FS) (p d : Path) :
    jpgNames (fs.makedirs p) d = jpgNames fs d := rfl

theorem getLastD_concat (l : List String) (a x : String) :
    (l ++ [a]).getLastD x = a := by
  cases l <;> simp [List.getLastD]

theorem jpgNames_writeFile_notjpg {fs : FS} {p : Path} {b : Blob} (d : Path)
    (hfresh : p ∉ fs.files.map Prod.fst)
    (hnm : strEndsWithB (p.getLastD "") ".jpg" = false) :
    jpgNames (fs.writeFile p b) d = jpgNames fs d := by
  unfold jpgNames
  rw [writeFile_files_of_fresh hfresh]
  simp only [List.map_cons]
  rw [List.filterMap_cons]
  cases hcn : childName d p with
  | none => rfl
  | some nm =>
    have hp := childName_eq_some.mp hcn
    have : (p.getLastD "") = nm := by rw [hp]; exact getLastD_concat _ _ _
    rw [List.filter_cons_of_neg]
    rw [this] at hnm
    simp [hnm]

/-! String-suffix facts. -/

theorem strEndsWithB_append (s suf : String) :
    strEndsWithB (s ++ suf) suf = true := by
  unfold strEndsWithB
  rw [List.isSuffixOf_iff_suffix, String.data_append]
  exact List.suffix_append _ _

theorem npy_not_jpg (s : String) :
    strEndsWithB (s ++ ".npy") ".jpg" = false := by
  unfold strEndsWithB
  rw [Bool.eq_false_iff]
  intro hcon
  rw [List.isSuffixOf_iff_suffix, String.data_append] at hcon
  have h1 : ".jpg".data = List.drop ((s.data ++ ".npy".data).length - 4)
      (s.data ++ ".npy".data) := List.suffix_iff_eq_drop.mp hcon
  have h2 : ".npy".data = List.drop ((s.data ++ ".npy".data).length - 4)
      (s.data ++ ".npy".data) := List.suffix_iff_eq_drop.mp (List.suffix_append _ _)
  rw [← h2] at h1
  exact absurd h1 (by decide)

/-! The lexicographic comparison is a strict total order. -/

theorem lexLtB_irrefl (a : List Char) : lexLtB a a = false := by
  induction a with
  | nil => rfl
  | cons x xs ih => simp [lexLtB, ih]

theorem lexLtB_eq_of_not_lt {a b : List Char}
    (h1 : lexLtB a b = false) (h2 : lexLtB b a = false) : a = b := by
  induction a generalizing b with
  | nil =>
    cases b with
    | nil => rfl
    | cons y ys => simp [lexLtB] at h1
  | cons x xs ih =>
    cases b with
    | nil => simp [lexLtB] at h2
    | cons y ys =>
      simp only [lexLtB] at h1 h2
      by_cases hxy : x < y
      · simp [hxy] at h1
      · by_cases hyx : y < x
        · simp [hxy, hyx] at h2
        · have hx : x = y := le_antisymm (not_lt.mp hyx) (not_lt.mp hxy)
          simp only [hxy, if_false, hyx] at h1 h2
          rw [hx, ih (by simpa [hx] using h1) (by simpa [hx] using h2)]

theorem lexLtB_trans {a b c : List Char}
    (h1 : lexLtB a b = true) (h2 : lexLtB b c = true) : lexLtB a c = true := by
  induction a generalizing b c with
  | nil =>
    cases c with
    | nil =>
      cases b with
      | nil => exact h1
      | cons y ys => simp [lexLtB] at h2
    | cons z zs => rfl
  | cons x xs ih =>
    cases b with
    | nil => simp [lexLtB] at h1
    | cons y ys =>
      cases c with
      | nil => simp [lexLtB] at h2
      | cons z zs =>
        simp only [lexLtB] at h1 h2 ⊢
        by_cases hxy : x < y
        · by_cases hyz : y < z
          · simp [lt_trans hxy hyz]
          · by_cases hzy : z < y
            · simp [hyz, hzy] at h2
            · have : y = z := le_antisymm (not_lt.mp hzy) (not_lt.mp hyz)
              simp [this ▸ hxy]
        · by_cases hyx : y < x
          · simp [hxy, hyx] at h1
          · have hxeq : x = y := le_antisymm (not_lt.mp hyx) (not_lt.mp hxy)
            subst hxeq
            by_cases hxz : x < z
            · simp [hxz]
            · by_cases hzx : z < x
              · simp [hxz, hzx] at h2
              · simp only [hxz, if_false, hzx] at h1 h2 ⊢
                exact ih (by simpa using h1) (by simpa using h2)

theorem lexLtB_asymm {a b : List Char} (h : lexLtB a b = true) :
    lexLtB b a = false := by
  rw [Bool.eq_false_iff]
  intro hcon
  have := lexLtB_trans h hcon
  rw [lexLtB_irrefl] at this
  exact absurd this (by simp)

theorem strLeB_total (a b : String) : (strLeB a b || strLeB b a) = true := by
  unfold strLeB
  by_cases h : lexLtB b.data a.data = true
  · rw [lexLtB_asymm h]
    simp
  · simp only [Bool.not_eq_true] at h
    rw [h]
    simp

theorem strLeB_trans {a b c : String}
    (h1 : strLeB a b = true) (h2 : strLeB b c = true) : strLeB a c = true := by
  unfold strLeB at h1 h2 ⊢
  simp only [Bool.not_eq_true'] at h1 h2 ⊢
  rw [Bool.eq_false_iff]
  intro hca
  by_cases hbc : lexLtB b.data c.data = true
  · have hba := lexLtB_trans hbc hca
    rw [h1] at hba
    exact absurd hba (by simp)
  · have hbceq : b.data = c.data :=
      lexLtB_eq_of_not_lt (by simpa using hbc) h2
    rw [← hbceq] at hca
    rw [h1] at hca
    exact absurd hca (by simp)

theorem strLeB_antisymm {a b : String}
    (h1 : strLeB a b = true) (h2 : strLeB b a = true) : a = b := by
  unfold strLeB at h1 h2
  simp only [Bool.not_eq_true'] at h1 h2
  exact String.ext (lexLtB_eq_of_not_lt h2 h1)

theorem strLeB_of_not (a b : String) (h : strLeB a b = false) :
    strLeB b a = true := by
  have := strLeB_total a b
  rw [h] at this
  simpa using this

/-! Insertion sort: permutation, sortedness, uniqueness. -/

theorem insertLe_perm {α : Type} (le : α → α → Bool) (a : α) (l : List α) :
    (insertLe le a l).Perm (a :: l) := by
  induction l with
  | nil => exact List.Perm.refl _
  | cons b bs ih =>
    unfold insertLe
    by_cases h : le a b = true
    · rw [h]
      simp
    · simp only [Bool.not_eq_true] at h
      rw [h]
      simp only [Bool.false_eq_true, if_false]
      exact ((ih.cons b).trans (List.Perm.swap a b bs))

theorem insSort_perm {α : Type} (le : α → α → Bool) (l : List α) :
    (insSort le l).Perm l := by
  induction l with
  | nil => exact List.Perm.refl _
  | cons x xs ih =>
    exact (insertLe_perm le x (insSort le xs)).trans (ih.cons x)

theorem mem_insertLe {α : Type} {le : α → α → Bool} {a x : α} {l : List α}
    (h : x ∈ insertLe le a l) : x = a ∨ x ∈ l := by
  have := (insertLe_perm le a l).mem_iff.mp h
  simpa using this

theorem insertLe_pairwise {α : Type} {le : α → α → Bool}
    (htot : ∀ a b, (le a b || le b a) = true)
    (htrans : ∀ a b c, le a b = true → le b c = true → le a c = true)
    {a : α} {l : List α}
    (h : l.Pairwise (fun x y => le x y = true)) :
    (insertLe le a l).Pairwise (fun x y => le x y = true) := by
  induction l with
  | nil => simp [insertLe]
  | cons b bs ih =>
    rw [List.pairwise_cons] at h
    unfold insertLe
    by_cases hab : le a b = true
    · rw [hab]
      simp only [if_true]
      rw [List.pairwise_cons]
      constructor
      · intro z hz
        rcases List.mem_cons.mp hz with hzb | hzbs
        · exact hzb ▸ hab
        · exact htrans a b z hab (h.1 z hzbs)
      · rw [List.pairwise_cons]
        exact h
    · simp only [Bool.not_eq_true] at hab
      rw [hab]
      simp only [Bool.false_eq_true, if_false]
      rw [List.pairwise_cons]
      constructor
      · intro z hz
        rcases mem_insertLe hz with hza | hzl
        · subst hza
          have := htot z b
          rw [hab] at this
          simpa using this
        · exact h.1 z hzl
      · exact ih h.2

theorem insSort_pairwise {α : Type} {le : α → α → Bool}
    (htot : ∀ a b, (le a b || le b a) = true)
    (htrans : ∀ a b c, le a b = true → le b c = true → le a c = true)
    (l : List α) :
    (insSort le l).Pairwise (fun x y => le x y = true) := by
  induction l with
  | nil => simp [insSort]
  | cons x xs ih => exact insertLe_pairwise htot htrans ih

theorem insSortStr_eq_of_perm {l1 l2 : List String} (h : l1.Perm l2) :
    insSort strLeB l1 = insSort strLeB l2 := by
  apply @List.Perm.eq_of_sorted String (fun a b => strLeB a b = true) _ _
  · intro a b _ _ hab hba
    exact strLeB_antisymm hab hba
  · exact insSort_pairwise strLeB_total (fun a b c => strLeB_trans) l1
  · exact insSort_pairwise strLeB_total (fun a b c => strLeB_trans) l2
  · exact (insSort_perm _ l1).trans (h.trans (insSort_perm _ l2).symm)

/-! Decimal digits and the %03d frame names. -/

theorem natDigits_lt_ten (n : Nat) : ∀ d ∈ natDigits n, d < 10 := by
  induction n using Nat.strong_induction_on with
  | _ n ih =>
    unfold natDigits
    split
    · intro d hd
      simp only [List.mem_singleton] at hd
      omega
    · intro d hd
      rw [List.mem_append] at hd
      rcases hd with h1 | h2
      · exact ih (n / 10) (Nat.div_lt_self (by omega) (by omega)) d h1
      · simp only [List.mem_singleton] at h2
        omega

theorem natDigits_decode (n : Nat) :
    (natDigits n).foldl (fun acc d => 10 * acc + d) 0 = n := by
  induction n using Nat.strong_induction_on with
  | _ n ih =>
    unfold natDigits
    split
    · simp
    · rw [List.foldl_concat]
      rw [ih (n / 10) (Nat.div_lt_self (by omega) (by omega))]
      omega

theorem lt_pow_length_natDigits (n : Nat) : n < 10 ^ (natDigits n).length := by
  induction n using Nat.strong_induction_on with
  | _ n ih =>
    unfold natDigits
    split
    · simpa using (by omega : n < 10)
    · rw [List.length_append]
      have h1 := ih (n / 10) (Nat.div_lt_self (by omega) (by omega))
      have h2 : 10 ^ ((natDigits (n / 10)).length + [n % 10].length) =
          10 ^ (natDigits (n / 10)).length * 10 := by
        simp [pow_succ]
      rw [h2]
      omega

theorem digitChar_mono_aux :
    ∀ a < 10, ∀ b < 10, a < b → Nat.digitChar a < Nat.digitChar b := by decide

theorem map_digitChar_inj {l1 l2 : List Nat}
    (h1 : ∀ d ∈ l1, d < 10) (h2 : ∀ d ∈ l2, d < 10)
    (h : l1.map Nat.digitChar = l2.map Nat.digitChar) : l1 = l2 := by
  induction l1 generalizing l2 with
  | nil =>
    cases l2 with
    | nil => rfl
    | cons y ys => simp at h
  | cons x xs ih =>
    cases l2 with
    | nil => simp at h
    | cons y ys =>
      simp only [List.map_cons, List.cons.injEq] at h
      have hxy : x = y := by
        have hx := h1 x (List.mem_cons_self x xs)
        have hy := h2 y (List.mem_cons_self y ys)
        by_contra hne
        rcases Nat.lt_or_ge x y with hlt | hge
        · exact absurd h.1 (ne_of_lt (digitChar_mono_aux x hx y hy hlt))
        · have : y < x := by omega
          exact absurd h.1.symm (ne_of_lt (digitChar_mono_aux y hy x hx this))
      rw [hxy, ih (fun d hd => h1 d (List.mem_cons_of_mem x hd))
        (fun d hd => h2 d (List.mem_cons_of_mem y hd)) h.2]

theorem pad3_data_of_lt {n : Nat} (h : n < 1000) :
    (pad3 n).data = [Nat.digitChar (n / 100), Nat.digitChar (n / 10 % 10),
      Nat.digitChar (n % 10)] := by
  unfold pad3
  rw [if_pos h]

theorem pad3_data_of_ge {n : Nat} (h : ¬ n < 1000) :
    (pad3 n).data = (natDigits n).map Nat.digitChar := by
  unfold pad3
  rw [if_neg h]

theorem pad3_length_of_ge {n : Nat} (h : ¬ n < 1000) :
    4 ≤ (pad3 n).data.length := by
  rw [pad3_data_of_ge h, List.length_map]
  by_contra hcon
  have := lt_pow_length_natDigits n
  have hle : (10:Nat) ^ (natDigits n).length ≤ 10 ^ 3 :=
    Nat.pow_le_pow_right (by omega) (by omega)
  have : n < 1000 := by
    have h3 : (10:Nat) ^ 3 = 1000 := by norm_num
    omega
  exact h this

theorem lexLtB_pad3 {a b : Nat} (hab : a < b) (hb : b < 1000) :
    lexLtB (pad3 a).data (pad3 b).data = true := by
  have ha : a < 1000 := by omega
  rw [pad3_data_of_lt ha, pad3_data_of_lt hb]
  have key : a / 100 < b / 100 ∨ (a / 100 = b / 100 ∧
      (a / 10 % 10 < b / 10 % 10 ∨
        (a / 10 % 10 = b / 10 % 10 ∧ a % 10 < b % 10))) := by omega
  rcases key with h1 | ⟨h1, h2 | ⟨h2, h3⟩⟩
  · simp [lexLtB, digitChar_mono_aux _ (by omega) _ (by omega) h1]
  · rw [h1]
    simp [lexLtB, lt_irrefl, digitChar_mono_aux _ (by omega) _ (by omega) h2]
  · rw [h1, h2]
    simp [lexLtB, lt_irrefl, digitChar_mono_aux _ (by omega) _ (by omega) h3]

theorem pad3_ne_of_lt {a b : Nat} (hab : a < b) : pad3 a ≠ pad3 b := by
  intro heq
  by_cases hb : b < 1000
  · have := lexLtB_pad3 hab hb
    rw [heq, lexLtB_irrefl] at this
    exact absurd this (by simp)
  · by_cases ha : a < 1000
    · have h3 : (pad3 a).data.length = 3 := by rw [pad3_data_of_lt ha]; rfl
      have h4 := pad3_length_of_ge hb
      rw [heq] at h3
      omega
    · have hda := pad3_data_of_ge ha
      have hdb := pad3_data_of_ge hb
      have : natDigits a = natDigits b := by
        apply map_digitChar_inj (natDigits_lt_ten a) (natDigits_lt_ten b)
        rw [← hda, ← hdb, heq]
      have hfold := natDigits_decode a
      rw [this, natDigits_decode b] at hfold
      omega

theorem pad3_inj : Function.Injective pad3 := by
  intro a b h
  rcases Nat.lt_trichotomy a b with hab | hab | hab
  · exact absurd h (pad3_ne_of_lt hab)
  · exact hab
  · exact absurd h.symm (pad3_ne_of_lt hab)

theorem frameJpg_data (i : Nat) :
    (frameJpg i).data = "frame-".data ++ ((pad3 i).data ++ ".jpg".data) := by
  unfold frameJpg
  rw [String.data_append, String.data_append, List.append_assoc]

theorem frameJpg_inj : Function.Injective frameJpg := by
  intro a b h
  apply pad3_inj
  apply String.ext
  have hd := congrArg String.data h
  rw [frameJpg_data, frameJpg_data] at hd
  exact List.append_cancel_right (List.append_cancel_left hd)

theorem strEndsWithB_frameJpg (i : Nat) :
    strEndsWithB (frameJpg i) ".jpg" = true := by
  unfold strEndsWithB
  rw [List.isSuffixOf_iff_suffix, frameJpg_data, ← List.append_assoc]
  exact List.suffix_append _ _

theorem lexLtB_append_left (xs as bs : List Char) :
    lexLtB (xs ++ as) (xs ++ bs) = lexLtB as bs := by
  induction xs with
  | nil => rfl
  | cons x l ih => simp [lexLtB, lt_irrefl, ih]

theorem lexLtB_append_same {p1 p2 : List Char} (s t : List Char)
    (hlen : p1.length = p2.length) (h : lexLtB p1 p2 = true) :
    lexLtB (p1 ++ s) (p2 ++ t) = true := by
  induction p1 generalizing p2 with
  | nil =>
    cases p2 with
    | nil => simp [lexLtB] at h
    | cons y ys => simp at hlen
  | cons x xs ih =>
    cases p2 with
    | nil => simp at hlen
    | cons y ys =>
      simp only [lexLtB, List.cons_append] at h ⊢
      by_cases hxy : x < y
      · simp [hxy]
      · by_cases hyx : y < x
        · simp [hxy, hyx] at h
        · simp only [hxy, if_false, hyx] at h ⊢
          exact ih (by simpa using hlen) (by simpa using h)

theorem frameJpg_lexLt {a b : Nat} (hab : a < b) (hb : b ≤ 999) :
    lexLtB (frameJpg a).data (frameJpg b).data = true := by
  rw [frameJpg_data, frameJpg_data, lexLtB_append_left]
  apply lexLtB_append_same
  · rw [pad3_data_of_lt (by omega), pad3_data_of_lt (by omega : b < 1000)]
    rfl
  · exact lexLtB_pad3 hab (by omega)

theorem strLeB_frameJpg {a b : Nat} (hab : a ≤ b) (hb : b ≤ 999) :
    strLeB (frameJpg a) (frameJpg b) = true := by
  unfold strLeB
  rcases Nat.lt_or_ge a b with h | h
  · rw [lexLtB_asymm (frameJpg_lexLt h hb)]
    rfl
  · have : a = b := by omega
    rw [this, lexLtB_irrefl]
    rfl

/-! Sorted frame-name lists. -/

theorem canonicalFrames_nodup (n : Nat) :
    ((List.range' 1 n).map frameJpg).Nodup :=
  List.Nodup.map frameJpg_inj (List.nodup_range' 1 n)

theorem insSort_canonicalFrames {n : Nat} (hn : n ≤ 999) {l : List String}
    (hperm : l.Perm ((List.range' 1 n).map frameJpg)) :
    insSort strLeB l = (List.range' 1 n).map frameJpg := by
  rw [insSortStr_eq_of_perm hperm]
  apply @List.Perm.eq_of_sorted String (fun a b => strLeB a b = true) _ _
  · intro a b _ _ hab hba
    exact strLeB_antisymm hab hba
  · exact insSort_pairwise strLeB_total (fun a b c => strLeB_trans) _
  · rw [List.pairwise_map]
    refine List.Pairwise.imp_of_mem ?_ (List.pairwise_lt_range' 1 n)
    intro a b hma hmb hab
    have hbb : b ≤ 999 := by
      rcases List.mem_range'.mp hmb with ⟨i, hi, rfl⟩
      omega
    exact strLeB_frameJpg (by omega) hbb
  · exact insSort_perm _ _

/-! Set-level identification of jpg listings. -/

theorem jpgNames_perm_of_mem_iff {fs1 fs2 : FS} {d : Path}
    (h : ∀ nm, nm ∈ jpgNames fs1 d ↔ nm ∈ jpgNames fs2 d) :
    (jpgNames fs1 d).Perm (jpgNames fs2 d) :=
  (List.perm_ext_iff_of_nodup (jpgNames_nodup _ _) (jpgNames_nodup _ _)).mpr h

theorem countJpg_eq_of_mem_iff {fs1 fs2 : FS} {d : Path}
    (h : ∀ nm, nm ∈ jpgNames fs1 d ↔ nm ∈ jpgNames fs2 d) :
    countJpg fs1 d = countJpg fs2 d :=
  (jpgNames_perm_of_mem_iff h).length_eq

theorem sortedJpgNames_eq_of_mem_iff {fs1 fs2 : FS} {d : Path}
    (h : ∀ nm, nm ∈ jpgNames fs1 d ↔ nm ∈ jpgNames fs2 d) :
    sortedJpgNames fs1 d = sortedJpgNames fs2 d :=
  insSortStr_eq_of_perm (jpgNames_perm_of_mem_iff h)

/-! Characterizations of the loop bodies. -/

theorem sortedJpgNames_makedirs (fs : FS) (p d : Path) :
    sortedJpgNames (fs.makedirs p) d = sortedJpgNames fs d := rfl

theorem readImgD_makedirs (fs : FS) (p q : Path) :
    readImgD (fs.makedirs p) q = readImgD fs q := rfl

theorem v2fStep_ok_iff {fd : Path} {n : Nat} {oT : Transcoder} {st : VSt}
    {v : Path} {st1 : VSt} :
    v2fStep fd n oT st v = .ok st1 ↔
      ∃ d, frameDirOfVideo fd v = .ok d ∧ oT.durationMs v ≠ 0 ∧
        countJpg (writeFrames (st.fs.makedirs d) d oT v (oT.nFrames v)) d = n ∧
        st1 = ⟨writeFrames (st.fs.makedirs d) d oT v (oT.nFrames v),
               st.nCounter + 1, st.proc ++ [(v, d)]⟩ := by
  unfold v2fStep
  cases hfd : frameDirOfVideo fd v with
  | error e => simp
  | ok d =>
    simp only []
    by_cases hdur : oT.durationMs v = 0
    · rw [(by simpa using hdur : (oT.durationMs v == 0) = true)]
      simp [hdur]
    · rw [(by simpa using hdur : (oT.durationMs v == 0) = false)]
      simp only [Bool.false_eq_true, if_false]
      by_cases hcnt : countJpg (writeFrames (st.fs.makedirs d) d oT v (oT.nFrames v)) d = n
      · rw [(by simpa using hcnt : (countJpg _ _ == n) = true)]
        simp only [if_true, Except.ok.injEq]
        constructor
        · intro h
          exact ⟨d, rfl, hdur, hcnt, h.symm⟩
        · rintro ⟨d2, hd2, _, _, hst1⟩
          cases hd2
          exact hst1.symm
      · rw [(by simpa using hcnt : (countJpg _ _ == n) = false)]
        simp only [Bool.false_eq_true, if_false]
        constructor
        · intro h
          exact absurd h (by simp)
        · rintro ⟨d2, hd2, _, hcnt2, _⟩
          cases hd2
          exact absurd hcnt2 hcnt

theorem v2fStep_error_files {fd : Path} {n : Nat} {oT : Transcoder} {st : VSt}
    {v : Path} {e : Err} {st1 : VSt}
    (h : v2fStep fd n oT st v = .error (e, st1)) :
    st1.proc = st.proc := by
  unfold v2fStep at h
  cases hfd : frameDirOfVideo fd v with
  | error e2 =>
    rw [hfd] at h
    simp only [Except.error.injEq, Prod.mk.injEq] at h
    rw [← h.2]
  | ok d =>
    rw [hfd] at h
    simp only [] at h
    by_cases hdur : (oT.durationMs v == 0) = true
    · rw [hdur] at h
      simp only [if_true, Except.error.injEq, Prod.mk.injEq] at h
      rw [← h.2]
    · rw [(by simpa using hdur : (oT.durationMs v == 0) = false)] at h
      simp only [Bool.false_eq_true, if_false] at h
      by_cases hcnt : (countJpg (writeFrames (st.fs.makedirs d) d oT v (oT.nFrames v)) d == n) = true
      · rw [hcnt] at h
        simp at h
      · rw [(by simpa using hcnt : (countJpg _ _ == n) = false)] at h
        simp only [Bool.false_eq_true, if_false, Except.error.injEq,
          Prod.mk.injEq] at h
        rw [← h.2]

theorem f2fStep_ok_iff {fd featd : Path} {cnn : ConvNet} {n : Nat} {st : FSt}
    {rel : Path} {st1 : FSt} :
    f2fStep fd featd cnn n st rel = .ok st1 ↔
      (st.fs.pathExists (featPathOf featd rel) = true ∧
        st1 = { st with skipped := st.skipped ++ [rel] }) ∨
      (st.fs.pathExists (featPathOf featd rel) = false ∧
        (sortedJpgNames st.fs (fd ++ rel)).length = n ∧
        ∃ arr, reshape2 n (cnnPredict cnn
            (((sortedJpgNames st.fs (fd ++ rel)).map
              (fun nm => fd ++ rel ++ [nm])).map (readImgD st.fs))) = .ok arr ∧
          st1 = ⟨(st.fs.makedirs (featPathOf featd rel).dropLast).writeFile
                  (featPathOf featd rel) (.npy arr),
                st.nCounter + 1, st.proc ++ [rel], st.skipped,
                st.reads ++ [(rel, (sortedJpgNames st.fs (fd ++ rel)).map
                  (fun nm => fd ++ rel ++ [nm]))]⟩) := by
  unfold f2fStep
  dsimp only
  have hri : readImgD (st.fs.makedirs (featPathOf featd rel).dropLast) =
      readImgD st.fs := rfl
  by_cases hex : st.fs.pathExists (featPathOf featd rel) = true
  · rw [hex]
    simp only [if_true, Except.ok.injEq, hex, true_and]
    constructor
    · intro h
      exact Or.inl h.symm
    · rintro (h | ⟨hc, _⟩)
      · exact h.symm
      · exact absurd hc (by simp)
  · have hex2 : st.fs.pathExists (featPathOf featd rel) = false := by simpa using hex
    rw [hex2]
    simp only [Bool.false_eq_true, if_false]
    rw [sortedJpgNames_makedirs, hri]
    by_cases hlen : (sortedJpgNames st.fs (fd ++ rel)).length = n
    · rw [(by simpa using hlen : ((sortedJpgNames st.fs (fd ++ rel)).length == n) = true)]
      simp only [if_true]
      cases hre : reshape2 n (cnnPredict cnn
          (((sortedJpgNames st.fs (fd ++ rel)).map
            (fun nm => fd ++ rel ++ [nm])).map (readImgD st.fs))) with
      | error e =>
        constructor
        · intro h
          exact absurd h (by simp)
        · rintro (⟨hc, _⟩ | ⟨_, _, arr, harr, _⟩)
          · simp [hex2] at hc
          · cases harr
      | ok arr =>
        constructor
        · intro h
          refine Or.inr ⟨trivial, hlen, arr, rfl, ?_⟩
          simpa using h.symm
        · rintro (⟨hc, _⟩ | ⟨_, _, arr2, harr2, hst1⟩)
          · simp [hex2] at hc
          · cases harr2
            simpa using hst1.symm
    · rw [(by simpa using hlen : ((sortedJpgNames st.fs (fd ++ rel)).length == n) = false)]
      simp only [Bool.false_eq_true, if_false]
      constructor
      · intro h
        exact absurd h (by simp)
      · rintro (⟨hc, _⟩ | ⟨_, hlen2, _⟩)
        · simp [hex2] at hc
        · exact absurd hlen2 hlen

theorem f2fStep_error_state {fd featd : Path} {cnn : ConvNet} {n : Nat}
    {st : FSt} {rel : Path} {e : Err} {st1 : FSt}
    (h : f2fStep fd featd cnn n st rel = .error (e, st1)) :
    st1.fs.files = st.fs.files ∧ st1.proc = st.proc ∧ st1.skipped = st.skipped := by
  unfold f2fStep at h
  dsimp only at h
  by_cases hex : st.fs.pathExists (featPathOf featd rel) = true
  · rw [hex] at h
    simp at h
  · rw [(by simpa using hex : st.fs.pathExists (featPathOf featd rel) = false)] at h
    simp only [Bool.false_eq_true, if_false] at h
    by_cases hlen : ((sortedJpgNames (st.fs.makedirs (featPathOf featd rel).dropLast)
        (fd ++ rel)).length == n) = true
    · rw [hlen] at h
      simp only [if_true] at h
      cases hre : reshape2 n (cnnPredict cnn
          (((sortedJpgNames (st.fs.makedirs (featPathOf featd rel).dropLast)
            (fd ++ rel)).map (fun nm => fd ++ rel ++ [nm])).map
              (readImgD (st.fs.makedirs (featPathOf featd rel).dropLast)))) with
      | error e2 =>
        rw [hre] at h
        simp only [Except.error.injEq, Prod.mk.injEq] at h
        rw [← h.2]
        exact ⟨rfl, rfl, rfl⟩
      | ok arr =>
        rw [hre] at h
        simp at h
    · rw [(by simpa using hlen :
        ((sortedJpgNames (st.fs.makedirs (featPathOf featd rel).dropLast)
          (fd ++ rel)).length == n) = false)] at h
      simp only [Bool.false_eq_true, if_false, Except.error.injEq,
        Prod.mk.injEq] at h
      rw [← h.2]
      exact ⟨rfl, rfl, rfl⟩

/-! Effect of the ffmpeg writes on jpg listings. -/

theorem concat_inj {α : Type} {d e : List α} {a b : α} :
    d ++ [a] = e ++ [b] ↔ d = e ∧ a = b := by
  constructor
  · intro h
    have hl : d.length = e.length := by
      have := congrArg List.length h
      simpa using this
    have h2 := List.append_inj h hl
    refine ⟨h2.1, ?_⟩
    have := h2.2
    simpa using this
  · rintro ⟨rfl, rfl⟩
    rfl

theorem mem_jpgNames_writeFile {fs : FS} {p : Path} {b : Blob} {d : Path}
    {nm : String} :
    nm ∈ jpgNames (fs.writeFile p b) d ↔
      ((d ++ [nm] = p ∨ (d ++ [nm]) ∈ fs.files.map Prod.fst) ∧
        strEndsWithB nm ".jpg" = true) := by
  rw [mem_jpgNames, mem_keys_writeFile]

theorem writeFrames_succ (fs : FS) (d : Path) (oT : Transcoder) (v : Path)
    (k : Nat) :
    writeFrames fs d oT v (k + 1) =
      (writeFrames fs d oT v k).writeFile (d ++ [frameJpg (k + 1)])
        (.jpg (oT.content v (k + 1))) := by
  unfold writeFrames
  rw [List.range'_concat, List.foldl_append]
  simp [Nat.add_comm]

theorem mem_jpgNames_writeFrames {fs : FS} {d0 : Path} {oT : Transcoder}
    {v : Path} {k : Nat} {d : Path} {nm : String} :
    nm ∈ jpgNames (writeFrames fs d0 oT v k) d ↔
      ((d = d0 ∧ ∃ i, 1 ≤ i ∧ i ≤ k ∧ nm = frameJpg i) ∨ nm ∈ jpgNames fs d) := by
  induction k with
  | zero =>
    constructor
    · intro h
      exact Or.inr h
    · rintro (⟨_, i, h1, h2, _⟩ | h)
      · omega
      · exact h
  | succ k ih =>
    rw [writeFrames_succ, mem_jpgNames_writeFile]
    constructor
    · rintro ⟨hnew | hold, hjpg⟩
      · rcases concat_inj.mp hnew with ⟨rfl, rfl⟩
        exact Or.inl ⟨rfl, k + 1, by omega, by omega, rfl⟩
      · have := mem_jpgNames.mpr ⟨hold, hjpg⟩
        rcases ih.mp this with ⟨rfl, i, h1, h2, h3⟩ | h
        · exact Or.inl ⟨rfl, i, h1, by omega, h3⟩
        · exact Or.inr h
    · rintro (⟨rfl, i, h1, h2, rfl⟩ | h)
      · by_cases hik : i ≤ k
        · have : frameJpg i ∈ jpgNames (writeFrames fs d oT v k) d :=
            ih.mpr (Or.inl ⟨rfl, i, h1, hik, rfl⟩)
          rcases mem_jpgNames.mp this with ⟨hmem, hjpg⟩
          exact ⟨Or.inr hmem, hjpg⟩
        · have : i = k + 1 := by omega
          subst this
          exact ⟨Or.inl rfl, strEndsWithB_frameJpg _⟩
      · rcases mem_jpgNames.mp h with ⟨hmem, hjpg⟩
        refine ⟨Or.inr ?_, hjpg⟩
        have := mem_jpgNames.mpr ⟨hmem, hjpg⟩
        rcases mem_jpgNames.mp (ih.mpr (Or.inr this)) with ⟨hm2, _⟩
        exact hm2

/-! C2: the frame-count check. -/

theorem v2fLoop_ok_counts {fd : Path} {n : Nat} {oT : Transcoder} {st : VSt}
    {L : List Path} {s : VSt}
    (h : v2fLoop fd n oT st L = .ok s)
    (hst : ∀ vd ∈ st.proc, countJpg st.fs vd.2 = n) :
    ∀ vd ∈ s.proc, countJpg s.fs vd.2 = n := by
  induction L generalizing st with
  | nil =>
    unfold v2fLoop at h
    injection h with h
    subst h
    exact hst
  | cons v vs ih =>
    unfold v2fLoop at h
    cases hstep : v2fStep fd n oT st v with
    | error e =>
      rw [hstep] at h
      cases h
    | ok st1 =>
      rw [hstep] at h
      apply ih h
      rcases v2fStep_ok_iff.mp hstep with ⟨d, hfd, hdur, hcnt, rfl⟩
      intro vd hvd
      rcases List.mem_append.mp hvd with hold | hnew
      · by_cases hdd : vd.2 = d
        · rw [hdd]
          exact hcnt
        · have hpres : countJpg (writeFrames (st.fs.makedirs d) d oT v
              (oT.nFrames v)) vd.2 = countJpg st.fs vd.2 := by
            apply countJpg_eq_of_mem_iff
            intro nm
            rw [mem_jpgNames_writeFrames]
            constructor
            · rintro (⟨h1, _⟩ | h2)
              · exact absurd h1 hdd
              · exact h2
            · intro h2
              exact Or.inr h2
          rw [hpres]
          exact hst vd hold
      · have : vd = (v, d) := by simpa using hnew
        rw [this]
        exact hcnt

/-- C2: in video2frames, right after the transcoder call the number of
.jpg frame files in the frame directory of the video is compared to
nFramesNorm and a ValueError is raised on mismatch (lines 76-81); so on
a normal return every processed video has exactly nFramesNorm frames in
its directory. -/
theorem C2_frame_count {fs : FS} {vd fd : Path} {n : Nat} {ncl : Option Nat}
    {oT : Transcoder} {s : VSt}
    (h : video2frames fs vd fd n ncl oT = .ok s) :
    ∀ p ∈ s.proc, countJpg s.fs p.2 = n := by
  unfold video2frames at h
  by_cases hex : fs.pathExists fd = true
  · rw [hex] at h
    cases h
  · rw [(by simpa using hex : fs.pathExists fd = false)] at h
    simp only [Bool.false_eq_true, if_false] at h
    exact v2fLoop_ok_counts h (by intro vd2 h2; cases h2)

/-- Witness for C2 at the concrete fixture run. -/
theorem C2_frame_count_witness :
    video2frames exFS0 exVideoDir exFrameDir 2 none exTrans
      = .ok (resVSt exRun1) ∧
    countJpg (resVSt exRun1).fs (exFrameDir ++ ["train", "c1", "v1"]) = 2 := by
  have h : video2frames exFS0 exVideoDir exFrameDir 2 none exTrans
      = .ok (resVSt exRun1) := rfl
  exact ⟨h, C2_frame_count h (["vids", "train", "c1", "v1.avi"],
    exFrameDir ++ ["train", "c1", "v1"]) (by decide)⟩

/-! C9: the shape of located video paths. -/

/-- C9: video2frames raises ValueError on a located path with fewer
than 4 slash-separated components (line 59); with at least 4, the
frame directory is sFrameDir joined with the third-to-last component,
the second-to-last component, and the file-name stem before the first
dot (lines 60-63). -/
theorem C9_video_path (sFrameDir p : Path) :
    (p.length < 4 → frameDirOfVideo sFrameDir p = .error .valueError ∧
      ∀ (n : Nat) (oT : Transcoder) (st : VSt),
        v2fStep sFrameDir n oT st p = .error (.valueError, st)) ∧
    (4 ≤ p.length → frameDirOfVideo sFrameDir p =
      .ok (sFrameDir ++ [p.getD (p.length - 3) "", p.getD (p.length - 2) "",
        stemOf (p.getD (p.length - 1) "")])) := by
  constructor
  · intro hlen
    have herr : frameDirOfVideo sFrameDir p = .error .valueError := by
      unfold frameDirOfVideo
      rw [if_pos hlen]
    refine ⟨herr, fun n oT st => ?_⟩
    unfold v2fStep
    rw [herr]
  · intro hlen
    unfold frameDirOfVideo
    rw [if_neg (by omega)]

/-- Witness for C9: a 2-component path is rejected, a 4-component path
with a dotted file name maps to the stem before the first dot. -/
theorem C9_video_path_witness :
    frameDirOfVideo ["f"] ["a", "b.avi"] = .error .valueError ∧
    frameDirOfVideo ["f"] ["d", "t", "c", "v.x.avi"] = .ok ["f", "t", "c", "v"] :=
  ⟨((C9_video_path ["f"] ["a", "b.avi"]).1 (by decide)).1,
   (C9_video_path ["f"] ["d", "t", "c", "v.x.avi"]).2 (by decide)⟩

/-! C8: the class restriction. -/

theorem v2fLoop_ok_procFst {fd : Path} {n : Nat} {oT : Transcoder} {st : VSt}
    {L : List Path} {s : VSt}
    (h : v2fLoop fd n oT st L = .ok s) :
    s.proc.map Prod.fst = st.proc.map Prod.fst ++ L := by
  induction L generalizing st with
  | nil =>
    unfold v2fLoop at h
    injection h with h
    subst h
    simp
  | cons v vs ih =>
    unfold v2fLoop at h
    cases hstep : v2fStep fd n oT st v with
    | error e =>
      rw [hstep] at h
      cases h
    | ok st1 =>
      rw [hstep] at h
      rcases v2fStep_ok_iff.mp hstep with ⟨d, _, _, _, rfl⟩
      rw [ih h]
      simp

theorem f2fLoop_ok_proc_skip {fd featd : Path} {cnn : ConvNet} {n : Nat}
    {st : FSt} {L : List Path} {s : FSt}
    (h : f2fLoop fd featd cnn n st L = .ok s) (rel : Path) :
    rel ∈ s.proc ∨ rel ∈ s.skipped ↔
      rel ∈ st.proc ∨ rel ∈ st.skipped ∨ rel ∈ L := by
  induction L generalizing st with
  | nil =>
    unfold f2fLoop at h
    injection h with h
    subst h
    simp [or_assoc]
  | cons r rest ih =>
    unfold f2fLoop at h
    cases hstep : f2fStep fd featd cnn n st r with
    | error e =>
      rw [hstep] at h
      cases h
    | ok st1 =>
      rw [hstep] at h
      have hmem := ih h
      rcases f2fStep_ok_iff.mp hstep with ⟨_, rfl⟩ | ⟨_, _, arr, _, rfl⟩
      · rw [hmem]
        simp only [List.mem_append, List.mem_singleton, List.mem_cons]
        tauto
      · rw [hmem]
        simp only [List.mem_append, List.mem_singleton, List.mem_cons]
        tauto

/-- C8: with nClasses set, exactly the videos whose label (the
second-to-last path component) lies among the first nClasses labels in
ascending sorted order of the distinct located labels go through the
loop, in both video2frames (lines 46-51) and frames2features (lines
103-108); with nClasses as None, every located video does. -/
theorem C8_class_restriction :
    (∀ (n : Nat) (vids : List Path) (v : Path),
      v ∈ restrictClasses (some n) vids ↔
        v ∈ vids ∧ labelOf v ∈ (insSort strLeB (vids.map labelOf).dedup).take n) ∧
    (∀ vids : List Path, restrictClasses none vids = vids) ∧
    (∀ (fs : FS) (vd fd : Path) (n : Nat) (ncl : Option Nat) (oT : Transcoder)
      (s : VSt), video2frames fs vd fd n ncl oT = .ok s →
        s.proc.map Prod.fst = restrictClasses ncl (globAvi fs vd)) ∧
    (∀ (fs : FS) (fd featd : Path) (cnn : ConvNet) (n : Nat) (ncl : Option Nat)
      (s : FSt), frames2features fs fd featd cnn n ncl = .ok s →
        ∀ rel, rel ∈ s.proc ∨ rel ∈ s.skipped ↔
          rel ∈ restrictClasses ncl (glob3 fs fd)) := by
  refine ⟨?_, ?_, ?_, ?_⟩
  · intro n vids v
    unfold restrictClasses
    rw [List.mem_filter]
    constructor
    · rintro ⟨hv, hc⟩
      exact ⟨hv, List.elem_iff.mp hc⟩
    · rintro ⟨hv, hc⟩
      exact ⟨hv, List.elem_iff.mpr hc⟩
  · intro vids
    rfl
  · intro fs vd fd n ncl oT s h
    unfold video2frames at h
    by_cases hex : fs.pathExists fd = true
    · rw [hex] at h
      cases h
    · rw [(by simpa using hex : fs.pathExists fd = false)] at h
      simp only [Bool.false_eq_true, if_false] at h
      have := v2fLoop_ok_procFst h
      simpa using this
  · intro fs fd featd cnn n ncl s h rel
    unfold frames2features at h
    by_cases hex : fs.pathExists featd = true
    · rw [hex] at h
      cases h
    · rw [(by simpa using hex : fs.pathExists featd = false)] at h
      simp only [Bool.false_eq_true, if_false] at h
      have := f2fLoop_ok_proc_skip h rel
      rw [this]
      simp

/-- Witness for C8: with the two-class fixture, restricting to one
class keeps exactly the video of the alphabetically first class, and
the unrestricted fixture run processes both located videos. -/
theorem C8_class_restriction_witness :
    (["vids", "train", "c1", "v1.avi"] ∈
      restrictClasses (some 1) (globAvi exFS0 exVideoDir)) ∧
    (resVSt exRun1).proc.map Prod.fst =
      restrictClasses none (globAvi exFS0 exVideoDir) := by
  have h : video2frames exFS0 exVideoDir exFrameDir 2 none exTrans
      = .ok (resVSt exRun1) := rfl
  exact ⟨(C8_class_restriction.1 1 (globAvi exFS0 exVideoDir) _).mpr
    ⟨by decide, by decide⟩,
    C8_class_restriction.2.2.1 exFS0 exVideoDir exFrameDir 2 none exTrans _ h⟩

/-! Facts about reshape, feature paths, and monotonicity. -/

theorem reshape2_ok_shape {n : Nat} {a arr : NpArr} (h : reshape2 n a = .ok arr) :
    arr.shape = [n, arr.data.length / n] := by
  unfold reshape2 at h
  split at h
  · injection h with h
    subst h
    rfl
  · cases h

theorem reshape2_error_kind {n : Nat} {a : NpArr} {e : Err}
    (h : reshape2 n a = .error e) : e = .valueError := by
  unfold reshape2 at h
  split at h
  · cases h
  · injection h with h
    exact h.symm

theorem featPathOf_getLastD (featd rel : Path) :
    (featPathOf featd rel).getLastD "" = rel.getLastD "" ++ ".npy" := by
  unfold featPathOf
  exact getLastD_concat _ _ _

theorem featPathOf_not_jpg (featd rel : Path) :
    strEndsWithB ((featPathOf featd rel).getLastD "") ".jpg" = false := by
  rw [featPathOf_getLastD]
  exact npy_not_jpg _

theorem pathExists_false_not_key {fs : FS} {p : Path}
    (h : fs.pathExists p = false) : p ∉ fs.files.map Prod.fst := by
  intro hmem
  rcases List.mem_map.mp hmem with ⟨e, he, hep⟩
  have : fs.pathExists p = true :=
    (pathExists_iff fs p).mpr (Or.inl (List.mem_map.mpr ⟨e, he, hep⟩))
  rw [h] at this
  cases this

theorem pathExists_writeFile_mono {fs : FS} {p q : Path} {b : Blob}
    (h : fs.pathExists q = true) : (fs.writeFile p b).pathExists q = true := by
  rcases (pathExists_iff fs q).mp h with hf | hd
  · exact (pathExists_iff _ q).mpr (Or.inl (mem_keys_writeFile.mpr (Or.inr hf)))
  · exact (pathExists_iff _ q).mpr (Or.inr (by rw [dirs_writeFile]; exact hd))

theorem pathExists_makedirs_mono {fs : FS} {p q : Path}
    (h : fs.pathExists q = true) : (fs.makedirs p).pathExists q = true := by
  rcases (pathExists_iff fs q).mp h with hf | hd
  · exact (pathExists_iff _ q).mpr (Or.inl hf)
  · refine (pathExists_iff _ q).mpr (Or.inr ?_)
    unfold FS.makedirs
    simp only [List.mem_append]
    exact Or.inr hd

/-- An ok frames2features step leaves every jpg directory listing
unchanged: it only creates directories and writes one .npy file. -/
theorem f2fStep_ok_jpgNames {fd featd : Path} {cnn : ConvNet} {n : Nat}
    {st : FSt} {rel : Path} {st1 : FSt}
    (h : f2fStep fd featd cnn n st rel = .ok st1) :
    ∀ d, jpgNames st1.fs d = jpgNames st.fs d := by
  intro d
  rcases f2fStep_ok_iff.mp h with ⟨_, rfl⟩ | ⟨hex, _, arr, _, rfl⟩
  · rfl
  · have hfresh : featPathOf featd rel ∉
        ((st.fs.makedirs (featPathOf featd rel).dropLast).files.map Prod.fst) := by
      rw [files_makedirs]
      exact pathExists_false_not_key hex
    exact jpgNames_writeFile_notjpg d hfresh (featPathOf_not_jpg featd rel)

theorem f2fStep_ok_pathExists_mono {fd featd : Path} {cnn : ConvNet} {n : Nat}
    {st : FSt} {rel : Path} {st1 : FSt}
    (h : f2fStep fd featd cnn n st rel = .ok st1) {q : Path}
    (hq : st.fs.pathExists q = true) : st1.fs.pathExists q = true := by
  rcases f2fStep_ok_iff.mp h with ⟨_, rfl⟩ | ⟨_, _, arr, _, rfl⟩
  · exact hq
  · exact pathExists_writeFile_mono (pathExists_makedirs_mono hq)

/-! C3: shape of every saved feature file. -/

theorem f2fLoop_files {fd featd : Path} {cnn : ConvNet} {n : Nat} {st : FSt}
    {L : List Path} :
    ∀ e ∈ (resSt (f2fLoop fd featd cnn n st L)).fs.files,
      e ∈ st.fs.files ∨
      ∃ rel arr, rel ∈ L ∧ e.1 = featPathOf featd rel ∧ e.2 = Blob.npy arr ∧
        arr.shape = [n, arr.data.length / n] := by
  induction L generalizing st with
  | nil =>
    intro e he
    exact Or.inl he
  | cons r rest ih =>
    intro e he
    unfold f2fLoop at he
    cases hstep : f2fStep fd featd cnn n st r with
    | error ep =>
      rw [hstep] at he
      obtain ⟨e2, st1⟩ := ep
      have hfiles := (f2fStep_error_state hstep).1
      simp only [resSt] at he
      rw [hfiles] at he
      exact Or.inl he
    | ok st1 =>
      rw [hstep] at he
      rcases ih _ he with hin | ⟨rel, arr, hrel, h1, h2, h3⟩
      · rcases f2fStep_ok_iff.mp hstep with ⟨_, rfl⟩ | ⟨hex, _, arr, hre, rfl⟩
        · exact Or.inl hin
        · have hw : (st.fs.makedirs (featPathOf featd r).dropLast).writeFile
              (featPathOf featd r) (.npy arr) =
              FS.mk ((featPathOf featd r, Blob.npy arr) ::
                st.fs.files) ((st.fs.makedirs (featPathOf featd r).dropLast).dirs) := by
            unfold FS.writeFile
            rw [show (st.fs.makedirs (featPathOf featd r).dropLast).files
                = st.fs.files from rfl]
            have : st.fs.files.filter (fun e => !(e.1 == featPathOf featd r))
                = st.fs.files := by
              apply List.filter_eq_self.mpr
              intro e2 he2
              simp only [Bool.not_eq_eq_eq_not, Bool.not_true, beq_eq_false_iff_ne, ne_eq]
              intro hep
              exact pathExists_false_not_key hex (List.mem_map.mpr ⟨e2, he2, hep⟩)
            rw [this]
          rw [hw] at hin
          rcases List.mem_cons.mp hin with hnew | hold
          · subst hnew
            exact Or.inr ⟨r, arr, List.mem_cons_self _ _, rfl, rfl,
              reshape2_ok_shape hre⟩
          · exact Or.inl hold
      · exact Or.inr ⟨rel, arr, List.mem_cons_of_mem r hrel, h1, h2, h3⟩

/-- C3: whichever way a frames2features run ends, every feature file it
wrote holds an array reshaped to nFramesNorm rows (line 142): its shape
is [nFramesNorm, F] for some F. -/
theorem C3_feature_shape {fs : FS} {fd featd : Path} {cnn : ConvNet} {n : Nat}
    {ncl : Option Nat} :
    ∀ e ∈ (resSt (frames2features fs fd featd cnn n ncl)).fs.files,
      e ∈ fs.files ∨
      ∃ rel arr F, e.1 = featPathOf featd rel ∧ e.2 = Blob.npy arr ∧
        arr.shape = [n, F] := by
  intro e he
  unfold frames2features at he
  by_cases hex : fs.pathExists featd = true
  · rw [hex] at he
    exact Or.inl he
  · rw [(by simpa using hex : fs.pathExists featd = false)] at he
    simp only [Bool.false_eq_true, if_false] at he
    rcases f2fLoop_files e he with hin | ⟨rel, arr, _, h1, h2, h3⟩
    · exact Or.inl hin
    · exact Or.inr ⟨rel, arr, arr.data.length / n, h1, h2, h3⟩

/-- Witness for C3 at the fixture pipeline: the feature file of the
first video is a new file of shape [2, 0]. -/
theorem C3_feature_shape_witness :
    ((featPathOf exFeatDir ["train", "c1", "v1"], Blob.npy ⟨[2, 0], []⟩) ∈
      (resSt exRun2).fs.files) ∧
    ((featPathOf exFeatDir ["train", "c1", "v1"], Blob.npy ⟨[2, 0], []⟩)
        ∈ (resVSt exRun1).fs.files ∨
      ∃ rel arr F,
        (featPathOf exFeatDir ["train", "c1", "v1"] : Path) = featPathOf exFeatDir rel ∧
        (Blob.npy ⟨[2, 0], []⟩ : Blob) = Blob.npy arr ∧ arr.shape = [2, F]) := by
  have hm : (featPathOf exFeatDir ["train", "c1", "v1"], Blob.npy ⟨[2, 0], []⟩) ∈
      (resSt (frames2features (resVSt exRun1).fs exFrameDir exFeatDir
        exCNN 2 none)).fs.files := by decide
  exact ⟨hm, C3_feature_shape _ hm⟩

/-! C10: the frame-count assertion. -/

theorem f2fStep_no_assert {fd featd : Path} {cnn : ConvNet} {n : Nat}
    {st : FSt} {rel : Path}
    (hc : countJpg st.fs (fd ++ rel) = n) :
    ∀ st1, f2fStep fd featd cnn n st rel ≠ .error (.assertionError, st1) := by
  intro st1 hcon
  unfold f2fStep at hcon
  dsimp only at hcon
  by_cases hex : st.fs.pathExists (featPathOf featd rel) = true
  · rw [hex] at hcon
    simp at hcon
  · rw [(by simpa using hex : st.fs.pathExists (featPathOf featd rel) = false)] at hcon
    simp only [Bool.false_eq_true, if_false] at hcon
    have hlen : (sortedJpgNames (st.fs.makedirs (featPathOf featd rel).dropLast)
        (fd ++ rel)).length = n := by
      rw [sortedJpgNames_makedirs]
      unfold sortedJpgNames
      rw [(insSort_perm _ _).length_eq]
      exact hc
    rw [(by simpa using hlen :
      ((sortedJpgNames (st.fs.makedirs (featPathOf featd rel).dropLast)
        (fd ++ rel)).length == n) = true)] at hcon
    simp only [if_true] at hcon
    cases hre : reshape2 n (cnnPredict cnn
        ((List.map (fun nm => fd ++ rel ++ [nm])
          (sortedJpgNames (st.fs.makedirs (featPathOf featd rel).dropLast)
            (fd ++ rel))).map
          (readImgD (st.fs.makedirs (featPathOf featd rel).dropLast)))) with
    | error e2 =>
      rw [hre] at hcon
      simp only [Except.error.injEq, Prod.mk.injEq] at hcon
      have := reshape2_error_kind hre
      rw [this] at hcon
      cases hcon.1
    | ok arr =>
      rw [hre] at hcon
      cases hcon

theorem f2fLoop_no_assert {fd featd : Path} {cnn : ConvNet} {n : Nat}
    {st : FSt} {L : List Path}
    (hc : ∀ rel ∈ L, countJpg st.fs (fd ++ rel) = n) :
    ∀ st1, f2fLoop fd featd cnn n st L ≠ .error (.assertionError, st1) := by
  induction L generalizing st with
  | nil =>
    intro st1 hcon
    cases hcon
  | cons r rest ih =>
    intro st1 hcon
    unfold f2fLoop at hcon
    cases hstep : f2fStep fd featd cnn n st r with
    | error ep =>
      rw [hstep] at hcon
      injection hcon with hcon
      obtain ⟨e2, st2⟩ := ep
      rw [Prod.mk.injEq] at hcon
      obtain ⟨rfl, rfl⟩ := hcon
      exact f2fStep_no_assert (hc r (List.mem_cons_self _ _)) _ hstep
    | ok st2 =>
      rw [hstep] at hcon
      have hc2 : ∀ rel ∈ rest, countJpg st2.fs (fd ++ rel) = n := by
        intro rel hrel
        unfold countJpg
        rw [f2fStep_ok_jpgNames hstep]
        exact hc rel (List.mem_cons_of_mem r hrel)
      exact ih hc2 st1 hcon

/-- C10: when every iterated frame directory holds exactly nFramesNorm
.jpg files, the state a successful video2frames run establishes, the
assertion of line 126 never fails: frames2features never raises
AssertionError. -/
theorem C10_assert_valid {fs : FS} {fd featd : Path} {cnn : ConvNet} {n : Nat}
    {ncl : Option Nat}
    (hc : ∀ rel ∈ restrictClasses ncl (glob3 fs fd), countJpg fs (fd ++ rel) = n) :
    ∀ st1, frames2features fs fd featd cnn n ncl ≠ .error (.assertionError, st1) := by
  intro st1 hcon
  unfold frames2features at hcon
  by_cases hex : fs.pathExists featd = true
  · rw [hex] at hcon
    injection hcon with hcon
    rw [Prod.mk.injEq] at hcon
    cases hcon.1
  · rw [(by simpa using hex : fs.pathExists featd = false)] at hcon
    simp only [Bool.false_eq_true, if_false] at hcon
    exact f2fLoop_no_assert hc st1 hcon

/-- Witness for C10 at the fixture pipeline. -/
theorem C10_assert_valid_witness :
    frames2features (resVSt exRun1).fs exFrameDir exFeatDir exCNN 2 none
      ≠ .error (.assertionError, resSt exRun2) :=
  C10_assert_valid (by decide) _

/-! C1: skipping videos whose feature file exists. -/

theorem f2fLoop_skip_inv {fd featd : Path} {cnn : ConvNet} {n : Nat}
    {st : FSt} {L : List Path} {s : FSt}
    (h : f2fLoop fd featd cnn n st L = .ok s) (rel : Path)
    (hex : st.fs.pathExists (featPathOf featd rel) = true) :
    (rel ∈ st.skipped → rel ∈ s.skipped) ∧ (rel ∈ L → rel ∈ s.skipped) ∧
    (rel ∉ st.proc → rel ∉ s.proc) ∧
    s.fs.readFile (featPathOf featd rel) = st.fs.readFile (featPathOf featd rel) := by
  induction L generalizing st with
  | nil =>
    unfold f2fLoop at h
    injection h with h
    subst h
    refine ⟨id, ?_, id, rfl⟩
    intro hk
    cases hk
  | cons r rest ih =>
    unfold f2fLoop at h
    cases hstep : f2fStep fd featd cnn n st r with
    | error ep =>
      rw [hstep] at h
      cases h
    | ok st1 =>
      rw [hstep] at h
      have hex1 : st1.fs.pathExists (featPathOf featd rel) = true :=
        f2fStep_ok_pathExists_mono hstep hex
      have ihs := ih h hex1
      rcases f2fStep_ok_iff.mp hstep with ⟨hexr, rfl⟩ | ⟨hexr, _, arr, _, rfl⟩
      · refine ⟨?_, ?_, ?_, ?_⟩
        · intro hsk
          exact ihs.1 (List.mem_append.mpr (Or.inl hsk))
        · intro hL
          rcases List.mem_cons.mp hL with rfl | hrest
          · exact ihs.1 (List.mem_append.mpr (Or.inr (List.mem_singleton.mpr rfl)))
          · exact ihs.2.1 hrest
        · exact ihs.2.2.1
        · exact ihs.2.2.2
      · have hne : rel ≠ r := by
          intro hre
          rw [← hre] at hexr
          rw [hex] at hexr
          cases hexr
        have hpne : featPathOf featd rel ≠ featPathOf featd r := by
          intro hpe
          rw [← hpe] at hexr
          rw [hex] at hexr
          cases hexr
        refine ⟨?_, ?_, ?_, ?_⟩
        · intro hsk
          exact ihs.1 hsk
        · intro hL
          rcases List.mem_cons.mp hL with rfl | hrest
          · exact absurd rfl hne
          · exact ihs.2.1 hrest
        · intro hpr
          apply ihs.2.2.1
          intro hmem
          rcases List.mem_append.mp hmem with hold | hnew
          · exact hpr hold
          · exact hne (List.mem_singleton.mp hnew)
        · rw [ihs.2.2.2]
          rw [show ((st.fs.makedirs (featPathOf featd r).dropLast).writeFile
              (featPathOf featd r) (Blob.npy arr)).readFile (featPathOf featd rel)
              = (st.fs.makedirs (featPathOf featd r).dropLast).readFile
                (featPathOf featd rel) from readFile_writeFile_ne hpne]
          rfl

/-- C1 (amended): inside one invocation of frames2features that passes
the entry check of line 94, every iterated video whose feature file
already exists at entry is skipped (lines 117-120): it is reported
skipped, not recomputed, and its feature file keeps its contents, while
the loop still handles every other located video.  The across-runs
reuse of the original claim fails: see the counterexample, a second
invocation refuses to run because sFeatureDir then exists. -/
theorem C1_skip_within_run {fs : FS} {fd featd : Path} {cnn : ConvNet}
    {n : Nat} {ncl : Option Nat} {s : FSt}
    (h : frames2features fs fd featd cnn n ncl = .ok s)
    (rel : Path) (hrel : rel ∈ restrictClasses ncl (glob3 fs fd))
    (hex : fs.pathExists (featPathOf featd rel) = true) :
    rel ∈ s.skipped ∧ rel ∉ s.proc ∧
    s.fs.readFile (featPathOf featd rel) = fs.readFile (featPathOf featd rel) ∧
    ∀ rel2 ∈ restrictClasses ncl (glob3 fs fd), rel2 ∈ s.proc ∨ rel2 ∈ s.skipped := by
  unfold frames2features at h
  by_cases hexd : fs.pathExists featd = true
  · rw [hexd] at h
    cases h
  · rw [(by simpa using hexd : fs.pathExists featd = false)] at h
    simp only [Bool.false_eq_true, if_false] at h
    have hinv := f2fLoop_skip_inv h rel hex
    refine ⟨hinv.2.1 hrel, hinv.2.2.1 (by intro hk; cases hk), hinv.2.2.2, ?_⟩
    intro rel2 hrel2
    exact (f2fLoop_ok_proc_skip h rel2).mpr (Or.inr (Or.inr hrel2))

/-- Counterexample to C1 as stated: after a completed feature run the
feature file of the first video exists, yet a new invocation does not
skip and continue — it raises ValueError at entry (line 94), because
sFeatureDir exists; so features are not reused across runs. -/
theorem C1_counterexample :
    (resSt exRun3).fs.pathExists (featPathOf exFeatDir ["train", "c1", "v1"]) = true ∧
    frames2features (resSt exRun3).fs exFrameDir exFeatDir exCNN 2 none
      = .error (.valueError, ⟨(resSt exRun3).fs, 0, [], [], []⟩) :=
  ⟨rfl, rfl⟩

/-- Witness for the amended C1: on a state where the feature file of
the first video exists while the feature directory does not, the run
skips the first video untouched and processes the second. -/
theorem C1_skip_within_run_witness :
    (["train", "c1", "v1"] : Path) ∈ (resSt exRun3).skipped ∧
    (["train", "c1", "v1"] : Path) ∉ (resSt exRun3).proc ∧
    (resSt exRun3).fs.readFile (featPathOf exFeatDir ["train", "c1", "v1"])
      = exFS3.readFile (featPathOf exFeatDir ["train", "c1", "v1"]) ∧
    ∀ rel2 ∈ restrictClasses none (glob3 exFS3 exFrameDir),
      rel2 ∈ (resSt exRun3).proc ∨ rel2 ∈ (resSt exRun3).skipped := by
  have h : frames2features exFS3 exFrameDir exFeatDir exCNN 2 none
      = .ok (resSt exRun3) := rfl
  exact C1_skip_within_run h ["train", "c1", "v1"] (by decide) (by decide)

/-! C7: the prediction stage. -/

theorem argmaxIdx_lt_length : ∀ l : List ℚ, l ≠ [] → argmaxIdx l < l.length
  | [], h => absurd rfl h
  | [x], _ => by simp [argmaxIdx]
  | x :: y :: rest, _ => by
    unfold argmaxIdx
    dsimp only
    by_cases hx : x < (y :: rest).getD (argmaxIdx (y :: rest)) 0
    · rw [if_pos hx]
      have := argmaxIdx_lt_length (y :: rest) (by simp)
      simpa using this
    · rw [if_neg hx]
      simp

theorem argmaxIdx_max : ∀ l : List ℚ, ∀ k < l.length,
    l.getD k 0 ≤ l.getD (argmaxIdx l) 0
  | [], k, hk => by simp at hk
  | [x], k, hk => by
    have : k = 0 := by simpa using hk
    subst this
    simp [argmaxIdx]
  | x :: y :: rest, k, hk => by
    unfold argmaxIdx
    dsimp only
    by_cases hx : x < (y :: rest).getD (argmaxIdx (y :: rest)) 0
    · rw [if_pos hx]
      cases k with
      | zero =>
        simpa using le_of_lt hx
      | succ k =>
        have := argmaxIdx_max (y :: rest) k (by simpa using hk)
        simpa using this
    · rw [if_neg hx]
      cases k with
      | zero => simp
      | succ k =>
        have h1 := argmaxIdx_max (y :: rest) k (by simpa using hk)
        have h2 : (y :: rest).getD (argmaxIdx (y :: rest)) 0 ≤ x := not_lt.mp hx
        simpa using le_trans h1 h2

theorem argmaxIdx_first : ∀ l : List ℚ, ∀ k < argmaxIdx l,
    l.getD k 0 < l.getD (argmaxIdx l) 0
  | [], k, hk => by simp [argmaxIdx] at hk
  | [x], k, hk => by simp [argmaxIdx] at hk
  | x :: y :: rest, k, hk => by
    unfold argmaxIdx at hk ⊢
    dsimp only at hk ⊢
    by_cases hx : x < (y :: rest).getD (argmaxIdx (y :: rest)) 0
    · rw [if_pos hx] at hk ⊢
      cases k with
      | zero => simpa using hx
      | succ k =>
        have := argmaxIdx_first (y :: rest) k (by omega)
        simpa using this
    · rw [if_neg hx] at hk
      omega

theorem count_true_zipWith (f : String → String → Bool) :
    ∀ (xs ys : List String), xs.length = ys.length →
    (List.zipWith f xs ys).count true =
      (List.range xs.length).countP (fun i => f (xs.getD i "") (ys.getD i ""))
  | [], ys, h => by
    simp
  | x :: xs, [], h => by
    simp at h
  | x :: xs, y :: ys, h => by
    rw [List.zipWith_cons_cons]
    simp only [List.length_cons]
    rw [List.range_succ_eq_map]
    rw [List.count_cons, List.countP_cons, List.countP_map]
    have ih := count_true_zipWith f xs ys (by simpa using h)
    rw [ih]
    have : (List.range xs.length).countP
        ((fun i => f ((x :: xs).getD i "") ((y :: ys).getD i "")) ∘ Nat.succ)
        = (List.range xs.length).countP
          (fun i => f (xs.getD i "") (ys.getD i "")) := by
      apply List.countP_congr
      intro i _
      simp
    rw [this]
    by_cases hf : f x y = true
    · simp [hf, Nat.add_comm]
    · have : f x y = false := by simpa using hf
      simp [this]

/-- C7: predict assigns to each video the class of maximal predicted
probability, numpy argmax returning the first maximal index (line 236),
maps those indices to class names through the class table (line 242),
and reports accuracy as the mean over videos of the indicator that the
predicted name equals the ground-truth label. -/
theorem C7_predict (oRNN : RNet) (labels : List String)
    (rows : List (List ℚ)) (hlen : labels.length = rows.length) :
    predictAccuracy oRNN labels rows =
      (((List.range rows.length).countP (fun i => labels.getD i "" ==
        oRNN.classTable.getD (argmaxIdx (oRNN.net (rows.getD i []))) "")) : ℚ)
        / (rows.length : ℚ) ∧
    predictedNames oRNN rows =
      rows.map (fun r => oRNN.classTable.getD (argmaxIdx (oRNN.net r)) "") ∧
    (∀ i < rows.length, ∀ k < (oRNN.net (rows.getD i [])).length,
      (oRNN.net (rows.getD i [])).getD k 0 ≤
        (oRNN.net (rows.getD i [])).getD
          (argmaxIdx (oRNN.net (rows.getD i []))) 0) ∧
    (∀ i < rows.length, ∀ k < argmaxIdx (oRNN.net (rows.getD i [])),
      (oRNN.net (rows.getD i [])).getD k 0 <
        (oRNN.net (rows.getD i [])).getD
          (argmaxIdx (oRNN.net (rows.getD i []))) 0) := by
  have hnames : predictedNames oRNN rows =
      rows.map (fun r => oRNN.classTable.getD (argmaxIdx (oRNN.net r)) "") := by
    unfold predictedNames
    rw [List.map_map, List.map_map]
    rfl
  refine ⟨?_, hnames, ?_, ?_⟩
  · unfold predictAccuracy meanB
    rw [hnames]
    have hlen2 : labels.length = (rows.map (fun r =>
        oRNN.classTable.getD (argmaxIdx (oRNN.net r)) "")).length := by
      rw [List.length_map]
      exact hlen
    rw [count_true_zipWith _ labels _ hlen2]
    rw [List.length_zipWith, List.length_map, hlen, min_self]
    congr 1
    rw [Nat.cast_inj]
    apply List.countP_congr
    intro i hi
    rw [List.mem_range] at hi
    have h1 : rows[i]? = some rows[i] := List.getElem?_eq_getElem hi
    have h2 : rows.getD i [] = rows[i] := List.getD_eq_getElem rows [] hi
    rw [List.getD_eq_getElem?_getD (List.map (fun r =>
      oRNN.classTable.getD (argmaxIdx (oRNN.net r)) "") rows) i ""]
    rw [List.getElem?_map, h1, h2]
    simp
  · intro i _ k hk
    exact argmaxIdx_max _ k hk
  · intro i _ k hk
    exact argmaxIdx_first _ k hk

/-- Witness for C7 at the two-video fixture. -/
theorem C7_predict_witness :
    predictAccuracy exRNN exLabels exRows =
      (((List.range exRows.length).countP (fun i => exLabels.getD i "" ==
        exRNN.classTable.getD (argmaxIdx (exRNN.net (exRows.getD i []))) "")) : ℚ)
        / (exRows.length : ℚ) :=
  (C7_predict exRNN exLabels exRows rfl).1

/-! C6: the disk-staged frame/effect contract. -/

theorem underDir_append (base x : Path) (hx : x ≠ []) :
    underDir base (base ++ x) = true := by
  unfold underDir
  rw [Bool.and_eq_true]
  constructor
  · simp only [List.length_append, decide_eq_true_eq]
    have : 0 < x.length := List.length_pos.mpr hx
    omega
  · rw [List.take_left]
    simp

theorem underDir_trans {base x p : Path} (h : underDir (base ++ x) p = true) :
    underDir base p = true := by
  unfold underDir at h ⊢
  rw [Bool.and_eq_true] at h ⊢
  rcases h with ⟨h1, h2⟩
  simp only [decide_eq_true_eq, List.length_append] at h1
  constructor
  · simp only [decide_eq_true_eq]
    omega
  · rw [beq_iff_eq] at h2 ⊢
    have : p.take base.length = (p.take (base ++ x).length).take base.length := by
      rw [List.take_take]
      congr 1
      simp only [List.length_append]
      omega
    rw [this, h2]
    rw [List.take_left]

theorem glob3_length {fs : FS} {base rel : Path} (h : rel ∈ glob3 fs base) :
    rel.length = 3 := by
  unfold glob3 at h
  rw [List.mem_dedup, List.mem_filterMap] at h
  rcases h with ⟨p, _, hp⟩
  split at hp
  · rename_i hcond
    rw [Bool.and_eq_true] at hcond
    injection hp with hp
    have h1 : p.length = base.length + 3 := by
      have := hcond.1
      simpa using this
    rw [← hp]
    rw [List.length_drop, h1]
    omega
  · cases hp

theorem restrictClasses_subset {ncl : Option Nat} {vids : List Path} :
    ∀ v ∈ restrictClasses ncl vids, v ∈ vids := by
  intro v hv
  unfold restrictClasses at hv
  cases ncl with
  | none => exact hv
  | some n => exact (List.mem_filter.mp hv).1

theorem f2fStep_error_full {fd featd : Path} {cnn : ConvNet} {n : Nat}
    {st : FSt} {rel : Path} {e : Err} {st1 : FSt}
    (h : f2fStep fd featd cnn n st rel = .error (e, st1)) :
    st1.fs.dirs = (st.fs.makedirs (featPathOf featd rel).dropLast).dirs ∧
    (st1.reads = st.reads ∨
      st1.reads = st.reads ++ [(rel, (sortedJpgNames st.fs (fd ++ rel)).map
        (fun nm => fd ++ rel ++ [nm]))]) := by
  unfold f2fStep at h
  dsimp only at h
  by_cases hex : st.fs.pathExists (featPathOf featd rel) = true
  · rw [hex] at h
    simp at h
  · rw [(by simpa using hex : st.fs.pathExists (featPathOf featd rel) = false)] at h
    simp only [Bool.false_eq_true, if_false] at h
    by_cases hlen : ((sortedJpgNames (st.fs.makedirs (featPathOf featd rel).dropLast)
        (fd ++ rel)).length == n) = true
    · rw [hlen] at h
      simp only [if_true] at h
      cases hre : reshape2 n (cnnPredict cnn
          (((sortedJpgNames (st.fs.makedirs (featPathOf featd rel).dropLast)
            (fd ++ rel)).map (fun nm => fd ++ rel ++ [nm])).map
              (readImgD (st.fs.makedirs (featPathOf featd rel).dropLast)))) with
      | error e2 =>
        rw [hre] at h
        simp only [Except.error.injEq, Prod.mk.injEq] at h
        rw [← h.2]
        exact ⟨rfl, Or.inr (by rw [sortedJpgNames_makedirs])⟩
      | ok arr =>
        rw [hre] at h
        simp at h
    · rw [(by simpa using hlen :
        ((sortedJpgNames (st.fs.makedirs (featPathOf featd rel).dropLast)
          (fd ++ rel)).length == n) = false)] at h
      simp only [Bool.false_eq_true, if_false, Except.error.injEq,
        Prod.mk.injEq] at h
      rw [← h.2]
      exact ⟨rfl, Or.inl rfl⟩

theorem sortedJpgNames_jpg {fs : FS} {d : Path} {nm : String}
    (h : nm ∈ sortedJpgNames fs d) : strEndsWithB nm ".jpg" = true := by
  unfold sortedJpgNames at h
  have := (insSort_perm strLeB (jpgNames fs d)).mem_iff.mp h
  exact (mem_jpgNames.mp this).2

theorem goodReads_entry {fs : FS} {fd rel : Path} :
    ∀ p ∈ (sortedJpgNames fs (fd ++ rel)).map (fun nm => fd ++ rel ++ [nm]),
      underDir fd p = true ∧ strEndsWithB (p.getLastD "") ".jpg" = true := by
  intro p hp
  rcases List.mem_map.mp hp with ⟨nm, hnm, rfl⟩
  constructor
  · rw [List.append_assoc]
    apply underDir_append
    simp
  · rw [getLastD_concat]
    exact sortedJpgNames_jpg hnm

theorem f2fLoop_reads {fd featd : Path} {cnn : ConvNet} {n : Nat} {st : FSt}
    {L : List Path} :
    ∀ rp ∈ (resSt (f2fLoop fd featd cnn n st L)).reads,
      rp ∈ st.reads ∨ ∀ p ∈ rp.2,
        underDir fd p = true ∧ strEndsWithB (p.getLastD "") ".jpg" = true := by
  induction L generalizing st with
  | nil =>
    intro rp hrp
    exact Or.inl hrp
  | cons r rest ih =>
    intro rp hrp
    unfold f2fLoop at hrp
    cases hstep : f2fStep fd featd cnn n st r with
    | error ep =>
      rw [hstep] at hrp
      obtain ⟨e2, st1⟩ := ep
      simp only [resSt] at hrp
      rcases (f2fStep_error_full hstep).2 with hsame | happ
      · rw [hsame] at hrp
        exact Or.inl hrp
      · rw [happ] at hrp
        rcases List.mem_append.mp hrp with hold | hnew
        · exact Or.inl hold
        · rw [List.mem_singleton] at hnew
          subst hnew
          exact Or.inr goodReads_entry
    | ok st1 =>
      rw [hstep] at hrp
      rcases ih _ hrp with hin | hgood
      · rcases f2fStep_ok_iff.mp hstep with ⟨_, rfl⟩ | ⟨_, _, arr, _, rfl⟩
        · exact Or.inl hin
        · rcases List.mem_append.mp hin with hold | hnew
          · exact Or.inl hold
          · rw [List.mem_singleton] at hnew
            subst hnew
            exact Or.inr goodReads_entry
      · exact Or.inr hgood

theorem mem_ancestors {p d : Path} (h : d ∈ ancestors p) :
    ∃ k, d = p.take k := by
  unfold ancestors at h
  rcases List.mem_map.mp h with ⟨i, _, rfl⟩
  exact ⟨i + 1, rfl⟩

theorem f2fLoop_dirs {fd featd : Path} {cnn : ConvNet} {n : Nat} {st : FSt}
    {L : List Path} :
    ∀ d ∈ (resSt (f2fLoop fd featd cnn n st L)).fs.dirs,
      d ∈ st.fs.dirs ∨
      ∃ rel k, rel ∈ L ∧ d = ((featPathOf featd rel).dropLast).take k := by
  induction L generalizing st with
  | nil =>
    intro d hd
    exact Or.inl hd
  | cons r rest ih =>
    intro d hd
    unfold f2fLoop at hd
    cases hstep : f2fStep fd featd cnn n st r with
    | error ep =>
      rw [hstep] at hd
      obtain ⟨e2, st1⟩ := ep
      simp only [resSt] at hd
      rw [(f2fStep_error_full hstep).1] at hd
      unfold FS.makedirs at hd
      rcases List.mem_append.mp hd with hanc | hold
      · rcases mem_ancestors hanc with ⟨k, rfl⟩
        exact Or.inr ⟨r, k, List.mem_cons_self _ _, rfl⟩
      · exact Or.inl hold
    | ok st1 =>
      rw [hstep] at hd
      rcases ih _ hd with hin | ⟨rel, k, hrel, rfl⟩
      · rcases f2fStep_ok_iff.mp hstep with ⟨_, rfl⟩ | ⟨_, _, arr, _, rfl⟩
        · exact Or.inl hin
        · rw [dirs_writeFile] at hin
          unfold FS.makedirs at hin
          rcases List.mem_append.mp hin with hanc | hold
          · rcases mem_ancestors hanc with ⟨k, rfl⟩
            exact Or.inr ⟨r, k, List.mem_cons_self _ _, rfl⟩
          · exact Or.inl hold
      · exact Or.inr ⟨rel, k, List.mem_cons_of_mem r hrel, rfl⟩

theorem f2fLoop_files_mono {fd featd : Path} {cnn : ConvNet} {n : Nat} {st : FSt}
    {L : List Path} :
    ∀ e ∈ st.fs.files, e ∈ (resSt (f2fLoop fd featd cnn n st L)).fs.files := by
  induction L generalizing st with
  | nil =>
    intro e he
    exact he
  | cons r rest ih =>
    intro e he
    unfold f2fLoop
    cases hstep : f2fStep fd featd cnn n st r with
    | error ep =>
      obtain ⟨e2, st1⟩ := ep
      simp only [resSt]
      rw [(f2fStep_error_state hstep).1]
      exact he
    | ok st1 =>
      apply ih
      rcases f2fStep_ok_iff.mp hstep with ⟨_, rfl⟩ | ⟨hex, _, arr, _, rfl⟩
      · exact he
      · have hw : ((st.fs.makedirs (featPathOf featd r).dropLast).writeFile
            (featPathOf featd r) (Blob.npy arr)).files
            = (featPathOf featd r, Blob.npy arr) :: st.fs.files := by
          apply writeFile_files_of_fresh
          rw [files_makedirs]
          exact pathExists_false_not_key hex
        rw [hw]
        exact List.mem_cons_of_mem _ he

theorem mem_videoFeatureFiles {fs : FS} {dir q : Path}
    (h : q ∈ videoFeatureFiles fs dir) :
    underDir dir q = true ∧ strEndsWithB (q.getLastD "") ".npy" = true := by
  unfold videoFeatureFiles at h
  rw [List.mem_dedup, List.mem_filter] at h
  have := h.2
  rw [Bool.and_eq_true] at this
  exact this

/-- C6: the stages communicate only through the file system.  Whatever
way a frames2features run ends, every frame file it fed to the ConvNet
is a .jpg under sFrameDir, every file of the entry state survives with
its contents, every new file is a .npy feature file under sFeatureDir,
every new directory is one of the directories containing a feature
file, and the loaders of train, evaluate and predict list only .npy
feature files under the directory they are given. -/
theorem C6_disk_contract {fs : FS} {fd featd : Path} {cnn : ConvNet} {n : Nat}
    {ncl : Option Nat} :
    (∀ rp ∈ (resSt (frames2features fs fd featd cnn n ncl)).reads, ∀ p ∈ rp.2,
      underDir fd p = true ∧ strEndsWithB (p.getLastD "") ".jpg" = true) ∧
    (∀ e ∈ fs.files, e ∈ (resSt (frames2features fs fd featd cnn n ncl)).fs.files) ∧
    (∀ e ∈ (resSt (frames2features fs fd featd cnn n ncl)).fs.files,
      e ∈ fs.files ∨
      (underDir featd e.1 = true ∧ strEndsWithB (e.1.getLastD "") ".npy" = true ∧
        ∃ arr, e.2 = Blob.npy arr)) ∧
    (∀ d ∈ (resSt (frames2features fs fd featd cnn n ncl)).fs.dirs,
      d ∈ fs.dirs ∨
      ∃ rel k, d = ((featPathOf featd rel).dropLast).take k) ∧
    (∀ q ∈ trainReads fs featd,
      underDir featd q = true ∧ strEndsWithB (q.getLastD "") ".npy" = true) ∧
    (∀ dir, ∀ q ∈ predictReads fs dir,
      underDir dir q = true ∧ strEndsWithB (q.getLastD "") ".npy" = true) := by
  have hbody : ∀ (P : Prop), (fs.pathExists featd = true →
      resSt (frames2features fs fd featd cnn n ncl) = ⟨fs, 0, [], [], []⟩ → P) →
      ((fs.pathExists featd = false →
        frames2features fs fd featd cnn n ncl =
          f2fLoop fd featd cnn n ⟨fs, 0, [], [], []⟩
            (restrictClasses ncl (glob3 fs fd))) → P) → P := by
    intro P h1 h2
    by_cases hex : fs.pathExists featd = true
    · apply h1 hex
      unfold frames2features
      rw [hex]
      rfl
    · apply h2
      intro hex2
      unfold frames2features
      rw [hex2]
      simp
  refine ⟨?_, ?_, ?_, ?_, ?_, ?_⟩
  · apply hbody
    · intro _ hres rp hrp
      rw [hres] at hrp
      cases hrp
    · intro hrun rp hrp
      by_cases hex : fs.pathExists featd = true
      · unfold frames2features at hrp
        rw [hex] at hrp
        cases hrp
      · rw [hrun (by simpa using hex)] at hrp
        rcases f2fLoop_reads rp hrp with hin | hgood
        · cases hin
        · exact hgood
  · apply hbody
    · intro _ hres e he
      rw [hres]
      exact he
    · intro hrun e he
      by_cases hex : fs.pathExists featd = true
      · unfold frames2features
        rw [hex]
        exact he
      · rw [hrun (by simpa using hex)]
        exact f2fLoop_files_mono e he
  · apply hbody
    · intro _ hres e he
      rw [hres] at he
      exact Or.inl he
    · intro hrun e he
      by_cases hex : fs.pathExists featd = true
      · unfold frames2features at he
        rw [hex] at he
        exact Or.inl he
      · rw [hrun (by simpa using hex)] at he
        rcases f2fLoop_files e he with hin | ⟨rel, arr, hrel, h1, h2, _⟩
        · exact Or.inl hin
        · right
          have hrel3 : rel.length = 3 :=
            glob3_length (restrictClasses_subset rel hrel)
          have hne : rel.dropLast ++ [rel.getLastD "" ++ ".npy"] ≠ [] := by
            simp
          refine ⟨?_, ?_, arr, h2⟩
          · rw [h1]
            unfold featPathOf
            rw [List.append_assoc]
            exact underDir_append _ _ (by simp)
          · rw [h1, featPathOf_getLastD]
            exact strEndsWithB_append _ _
  · apply hbody
    · intro _ hres d hd
      rw [hres] at hd
      exact Or.inl hd
    · intro hrun d hd
      by_cases hex : fs.pathExists featd = true
      · unfold frames2features at hd
        rw [hex] at hd
        exact Or.inl hd
      · rw [hrun (by simpa using hex)] at hd
        rcases f2fLoop_dirs d hd with hin | ⟨rel, k, _, rfl⟩
        · exact Or.inl hin
        · exact Or.inr ⟨rel, k, rfl⟩
  · intro q hq
    unfold trainReads at hq
    rcases List.mem_append.mp hq with h1 | h1
    · have := mem_videoFeatureFiles h1
      exact ⟨underDir_trans this.1, this.2⟩
    · have := mem_videoFeatureFiles h1
      exact ⟨underDir_trans this.1, this.2⟩
  · intro dir q hq
    exact mem_videoFeatureFiles hq

/-- Witness for C6 at the fixture pipeline: the first frame file fed to
the ConvNet is a .jpg under the frame directory. -/
theorem C6_disk_contract_witness :
    underDir exFrameDir (exFrameDir ++ ["train", "c1", "v1", "frame-001.jpg"]) = true ∧
    strEndsWithB ((exFrameDir ++
      ["train", "c1", "v1", "frame-001.jpg"]).getLastD "") ".jpg" = true := by
  have hrp : ((["train", "c1", "v1"] : Path),
      [exFrameDir ++ ["train", "c1", "v1", "frame-001.jpg"],
       exFrameDir ++ ["train", "c1", "v1", "frame-002.jpg"]]) ∈
      (resSt (frames2features (resVSt exRun1).fs exFrameDir exFeatDir
        exCNN 2 none)).reads := by decide
  exact C6_disk_contract.1 _ hrp _ (by decide)

/-! C5: completeness of both stages on well-formed inputs. -/

theorem frameDirOfVideo_ok_form {fd v d : Path}
    (h : frameDirOfVideo fd v = .ok d) :
    d.length = fd.length + 3 ∧ d.take fd.length = fd := by
  unfold frameDirOfVideo at h
  split at h
  · cases h
  · injection h with h
    subst h
    constructor
    · simp
    · rw [(by simp : (fd ++ [v.getD (v.length - 3) "", v.getD (v.length - 2) "",
        stemOf (v.getD (v.length - 1) "")]).take fd.length
          = fd.take fd.length)]
      simp

theorem mem_keys_writeFrames {fs : FS} {d0 : Path} {oT : Transcoder} {v : Path}
    {k : Nat} {q : Path} :
    q ∈ (writeFrames fs d0 oT v k).files.map Prod.fst ↔
      (∃ i, 1 ≤ i ∧ i ≤ k ∧ q = d0 ++ [frameJpg i]) ∨
        q ∈ fs.files.map Prod.fst := by
  induction k with
  | zero =>
    constructor
    · intro h
      exact Or.inr h
    · rintro (⟨i, h1, h2, _⟩ | h)
      · omega
      · exact h
  | succ k ih =>
    rw [writeFrames_succ, mem_keys_writeFile, ih]
    constructor
    · rintro (rfl | ⟨i, h1, h2, rfl⟩ | h)
      · exact Or.inl ⟨k + 1, by omega, by omega, rfl⟩
      · exact Or.inl ⟨i, h1, by omega, rfl⟩
      · exact Or.inr h
    · rintro (⟨i, h1, h2, rfl⟩ | h)
      · by_cases hik : i ≤ k
        · exact Or.inr (Or.inl ⟨i, h1, hik, rfl⟩)
        · have : i = k + 1 := by omega
          subst this
          exact Or.inl rfl
      · exact Or.inr (Or.inr h)

theorem framesOnly_makedirs {fd : Path} {n : Nat} {fs : FS} {p : Path}
    (h : framesOnly fd n fs) : framesOnly fd n (fs.makedirs p) := h

theorem framesOnly_writeFrames {fd : Path} {n : Nat} {fs : FS} {d0 : Path}
    {oT : Transcoder} {v : Path} {k : Nat}
    (hInv : framesOnly fd n fs) (hd0 : d0.length = fd.length + 3)
    (hk : k ≤ n) : framesOnly fd n (writeFrames fs d0 oT v k) := by
  intro p hp hunder
  rcases mem_keys_writeFrames.mp hp with ⟨i, h1, h2, rfl⟩ | h
  · exact ⟨d0, i, rfl, h1, by omega, hd0⟩
  · exact hInv p h hunder

theorem jpgNames_canonical {fd : Path} {n : Nat} {fs : FS} {d0 : Path}
    {oT : Transcoder} {v : Path}
    (hInv : framesOnly fd n fs) (hd0 : d0.length = fd.length + 3)
    (hd0p : d0.take fd.length = fd) :
    ∀ nm, nm ∈ jpgNames (writeFrames fs d0 oT v n) d0 ↔
      nm ∈ (List.range' 1 n).map frameJpg := by
  intro nm
  constructor
  · intro h
    rcases mem_jpgNames_writeFrames.mp h with ⟨_, i, h1, h2, rfl⟩ | hold
    · exact List.mem_map.mpr ⟨i, List.mem_range'.mpr ⟨i - 1, by omega, by omega⟩, rfl⟩
    · rcases mem_jpgNames.mp hold with ⟨hkey, _⟩
      have hunder : underDir fd (d0 ++ [nm]) = true := by
        unfold underDir
        rw [Bool.and_eq_true]
        constructor
        · simp only [List.length_append, decide_eq_true_eq]
          omega
        · rw [List.take_append_of_le_length (by omega), hd0p]
          simp
      rcases hInv _ hkey hunder with ⟨d2, i, heq, h1, h2, hlen2⟩
      have hdd : d0 = d2 ∧ nm = frameJpg i := by
        have hl : d0.length = d2.length := by omega
        rcases List.append_inj heq hl with ⟨hq1, hq2⟩
        exact ⟨hq1, by simpa using hq2⟩
      rw [hdd.2]
      exact List.mem_map.mpr ⟨i, List.mem_range'.mpr ⟨i - 1, by omega, by omega⟩, rfl⟩
  · intro h
    rcases List.mem_map.mp h with ⟨i, hi, rfl⟩
    rcases List.mem_range'.mp hi with ⟨j, hj, rfl⟩
    exact mem_jpgNames_writeFrames.mpr (Or.inl ⟨rfl, 1 + 1 * j, by omega, by omega, rfl⟩)

theorem countJpg_canonical {fd : Path} {n : Nat} {fs : FS} {d0 : Path}
    {oT : Transcoder} {v : Path}
    (hInv : framesOnly fd n fs) (hd0 : d0.length = fd.length + 3)
    (hd0p : d0.take fd.length = fd) :
    countJpg (writeFrames fs d0 oT v n) d0 = n := by
  unfold countJpg
  have hperm : (jpgNames (writeFrames fs d0 oT v n) d0).Perm
      ((List.range' 1 n).map frameJpg) :=
    (List.perm_ext_iff_of_nodup (jpgNames_nodup _ _)
      (canonicalFrames_nodup n)).mpr (jpgNames_canonical hInv hd0 hd0p)
  rw [hperm.length_eq, List.length_map, List.length_range']

theorem v2fStep_ok_exists {fd : Path} {n : Nat} {oT : Transcoder} {st : VSt}
    {v : Path}
    (hInv : framesOnly fd n st.fs) (hv4 : 4 ≤ v.length)
    (hdur : oT.durationMs v ≠ 0) (hfrm : oT.nFrames v = n) :
    ∃ st1, v2fStep fd n oT st v = .ok st1 ∧ framesOnly fd n st1.fs := by
  set d := fd ++ [v.getD (v.length - 3) "", v.getD (v.length - 2) "",
    stemOf (v.getD (v.length - 1) "")] with hd
  have hok : frameDirOfVideo fd v = .ok d := by
    unfold frameDirOfVideo
    rw [if_neg (by omega)]
  rcases frameDirOfVideo_ok_form hok with ⟨hlen, htake⟩
  have hInv2 : framesOnly fd n (st.fs.makedirs d) := framesOnly_makedirs hInv
  have hcnt : countJpg (writeFrames (st.fs.makedirs d) d oT v n) d = n :=
    countJpg_canonical hInv2 hlen htake
  refine ⟨_, v2fStep_ok_iff.mpr ⟨d, hok, hdur, by rw [hfrm]; exact hcnt, rfl⟩, ?_⟩
  show framesOnly fd n (writeFrames (st.fs.makedirs d) d oT v (oT.nFrames v))
  rw [hfrm]
  exact framesOnly_writeFrames hInv2 hlen (le_refl n)

theorem v2fLoop_ok_exists {fd : Path} {n : Nat} {oT : Transcoder} (st : VSt)
    (L : List Path)
    (hInv : framesOnly fd n st.fs)
    (hw : ∀ v ∈ L, 4 ≤ v.length ∧ oT.durationMs v ≠ 0 ∧ oT.nFrames v = n) :
    ∃ s, v2fLoop fd n oT st L = .ok s ∧ framesOnly fd n s.fs := by
  induction L generalizing st with
  | nil => exact ⟨st, rfl, hInv⟩
  | cons v vs ih =>
    rcases hw v (List.mem_cons_self _ _) with ⟨h4, hd, hf⟩
    rcases v2fStep_ok_exists hInv h4 hd hf with ⟨st1, hstep, hInv1⟩
    rcases ih st1 hInv1 (fun w hw2 => hw w (List.mem_cons_of_mem v hw2)) with
      ⟨s, hloop, hInvs⟩
    refine ⟨s, ?_, hInvs⟩
    unfold v2fLoop
    rw [hstep]
    exact hloop

theorem cnnPredict_data_length {cnn : ConvNet}
    (hcnn : ∀ x, (cnn.f x).length = cnn.m) :
    ∀ imgs : List String, (cnnPredict cnn imgs).data.length = imgs.length * cnn.m := by
  intro imgs
  show ((imgs.map cnn.f).flatten).length = imgs.length * cnn.m
  induction imgs with
  | nil => simp
  | cons x xs ih =>
    simp only [List.map_cons, List.flatten_cons, List.length_append, List.length_cons]
    rw [hcnn x, ih]
    ring

theorem f2fStep_ok_exists {fd : Path} (featd : Path) {cnn : ConvNet} {n : Nat}
    {st : FSt} {rel : Path}
    (hc : countJpg st.fs (fd ++ rel) = n)
    (hcnn : ∀ x, (cnn.f x).length = cnn.m) (hn : 0 < n) :
    ∃ st1, f2fStep fd featd cnn n st rel = .ok st1 := by
  by_cases hex : st.fs.pathExists (featPathOf featd rel) = true
  · exact ⟨_, f2fStep_ok_iff.mpr (Or.inl ⟨hex, rfl⟩)⟩
  · have hlen : (sortedJpgNames st.fs (fd ++ rel)).length = n := by
      unfold sortedJpgNames
      rw [(insSort_perm _ _).length_eq]
      exact hc
    have hdata : (cnnPredict cnn (((sortedJpgNames st.fs (fd ++ rel)).map
        (fun nm => fd ++ rel ++ [nm])).map (readImgD st.fs))).data.length
        = n * cnn.m := by
      rw [cnnPredict_data_length hcnn]
      rw [List.length_map, List.length_map, hlen]
    have hre : reshape2 n (cnnPredict cnn (((sortedJpgNames st.fs (fd ++ rel)).map
        (fun nm => fd ++ rel ++ [nm])).map (readImgD st.fs))) =
        .ok ⟨[n, (cnnPredict cnn (((sortedJpgNames st.fs (fd ++ rel)).map
          (fun nm => fd ++ rel ++ [nm])).map (readImgD st.fs))).data.length / n],
          (cnnPredict cnn (((sortedJpgNames st.fs (fd ++ rel)).map
            (fun nm => fd ++ rel ++ [nm])).map (readImgD st.fs))).data⟩ := by
      unfold reshape2
      rw [if_pos ⟨hn, by rw [hdata]; exact Dvd.intro cnn.m rfl⟩]
    exact ⟨_, f2fStep_ok_iff.mpr (Or.inr ⟨(by simpa using hex), hlen, _, hre, rfl⟩)⟩

theorem f2fLoop_ok_exists {fd : Path} (featd : Path) {cnn : ConvNet} {n : Nat}
    {st : FSt} {L : List Path}
    (hc : ∀ rel ∈ L, countJpg st.fs (fd ++ rel) = n)
    (hcnn : ∀ x, (cnn.f x).length = cnn.m) (hn : 0 < n) :
    ∃ s, f2fLoop fd featd cnn n st L = .ok s := by
  induction L generalizing st with
  | nil => exact ⟨st, rfl⟩
  | cons r rest ih =>
    rcases f2fStep_ok_exists featd (hc r (List.mem_cons_self _ _)) hcnn hn with ⟨st1, hstep⟩
    have hc1 : ∀ rel ∈ rest, countJpg st1.fs (fd ++ rel) = n := by
      intro rel hrel
      unfold countJpg
      rw [f2fStep_ok_jpgNames hstep]
      exact hc rel (List.mem_cons_of_mem r hrel)
    rcases ih hc1 with ⟨s, hloop⟩
    refine ⟨s, ?_⟩
    unfold f2fLoop
    rw [hstep]
    exact hloop

theorem framesOnly_of_clean {fd : Path} {n : Nat} {fs : FS}
    (h : ∀ p ∈ fs.files.map Prod.fst, underDir fd p = false) :
    framesOnly fd n fs := by
  intro p hp hunder
  rw [h p hp] at hunder
  cases hunder

/-- C5: given well-formed inputs — every located video path has at
least 4 components, a nonzero duration and a transcoder yielding
exactly nFramesNorm frames into a previously empty output tree, every
iterated frame directory holding exactly nFramesNorm frames, a ConvNet
with a fixed feature length and a positive nFramesNorm — video2frames
raises ValueError exactly when sFrameDir exists at entry and
frames2features raises ValueError exactly when sFeatureDir exists at
entry; in the error case the exception is raised before any extraction,
with the file system unchanged and nothing processed. -/
theorem C5_dir_protection
    (fs : FS) (vdir fd : Path) (n : Nat) (ncl : Option Nat) (oT : Transcoder)
    (fs2 : FS) (fd2 featd : Path) (n2 : Nat) (ncl2 : Option Nat) (cnn : ConvNet)
    (hwf1 : ∀ v ∈ globAvi fs vdir,
      4 ≤ v.length ∧ oT.durationMs v ≠ 0 ∧ oT.nFrames v = n)
    (hwf2 : ∀ p ∈ fs.files.map Prod.fst, underDir fd p = false)
    (hwf3 : ∀ rel ∈ restrictClasses ncl2 (glob3 fs2 fd2),
      countJpg fs2 (fd2 ++ rel) = n2)
    (hwf4 : ∀ x, (cnn.f x).length = cnn.m) (hwf5 : 0 < n2) :
    (fs.pathExists fd = true →
      video2frames fs vdir fd n ncl oT = .error (.valueError, ⟨fs, 0, []⟩)) ∧
    (fs.pathExists fd = false →
      ∃ s, video2frames fs vdir fd n ncl oT = .ok s) ∧
    (fs2.pathExists featd = true →
      frames2features fs2 fd2 featd cnn n2 ncl2 =
        .error (.valueError, ⟨fs2, 0, [], [], []⟩)) ∧
    (fs2.pathExists featd = false →
      ∃ s, frames2features fs2 fd2 featd cnn n2 ncl2 = .ok s) := by
  refine ⟨?_, ?_, ?_, ?_⟩
  · intro hex
    unfold video2frames
    rw [hex]
    rfl
  · intro hex
    unfold video2frames
    rw [hex]
    dsimp only
    simp only [Bool.false_eq_true, if_false]
    exact (v2fLoop_ok_exists ⟨fs, 0, []⟩ (restrictClasses ncl (globAvi fs vdir))
      (framesOnly_of_clean hwf2)
      (fun v hv => hwf1 v (restrictClasses_subset v hv))).imp
      (fun s hs => hs.1)
  · intro hex
    unfold frames2features
    rw [hex]
    rfl
  · intro hex
    unfold frames2features
    rw [hex]
    dsimp only
    simp only [Bool.false_eq_true, if_false]
    exact f2fLoop_ok_exists featd hwf3 hwf4 hwf5

/-- Witness for C5: on states where the output directory exists, both
stages stop at entry with a ValueError and an unchanged state. -/
theorem C5_dir_protection_witness :
    video2frames exFSX exVideoDir ["out"] 2 none exTrans
      = .error (.valueError, ⟨exFSX, 0, []⟩) ∧
    frames2features exFSX ["nowhere"] ["out"] exCNN 2 none
      = .error (.valueError, ⟨exFSX, 0, [], [], []⟩) := by
  have h := C5_dir_protection exFSX exVideoDir ["out"] 2 none exTrans
    exFSX ["nowhere"] ["out"] 2 none exCNN
    (by decide) (by decide) (by decide) (fun _ => rfl) (by decide)
  exact ⟨h.1 (by decide), h.2.2.1 (by decide)⟩

/-! C4: the temporal ordering of the sorted frame names. -/

theorem suffix_eq_of_length {t1 t2 l : List Char} (h1 : t1 <:+ l) (h2 : t2 <:+ l)
    (hlen : t1.length = t2.length) : t1 = t2 := by
  rw [List.suffix_iff_eq_drop] at h1 h2
  rw [h1, h2, hlen]

theorem jpg_npy_exclusive {x : String} (h : strEndsWithB x ".npy" = true) :
    strEndsWithB x ".jpg" = false := by
  unfold strEndsWithB at h ⊢
  rw [List.isSuffixOf_iff_suffix] at h
  rw [Bool.eq_false_iff]
  intro hcon
  rw [List.isSuffixOf_iff_suffix] at hcon
  have := suffix_eq_of_length hcon h (by rfl)
  exact absurd this (by decide)

theorem readImgD_congr {fs1 fs2 : FS} {p : Path}
    (h : fs1.readFile p = fs2.readFile p) : readImgD fs1 p = readImgD fs2 p := by
  unfold readImgD
  rw [h]

theorem f2fStep_ok_readFile_jpg {fd featd : Path} {cnn : ConvNet} {n : Nat}
    {st : FSt} {rel : Path} {st1 : FSt}
    (h : f2fStep fd featd cnn n st rel = .ok st1) {p : Path}
    (hp : strEndsWithB (p.getLastD "") ".jpg" = true) :
    st1.fs.readFile p = st.fs.readFile p := by
  rcases f2fStep_ok_iff.mp h with ⟨_, rfl⟩ | ⟨_, _, arr, _, rfl⟩
  · rfl
  · have hne : p ≠ featPathOf featd rel := by
      intro hpe
      have : strEndsWithB ((featPathOf featd rel).getLastD "") ".npy" = true := by
        rw [featPathOf_getLastD]
        exact strEndsWithB_append _ _
      rw [← hpe] at this
      rw [jpg_npy_exclusive this] at hp
      cases hp
    rw [show (((st.fs.makedirs (featPathOf featd rel).dropLast).writeFile
        (featPathOf featd rel) (Blob.npy arr)).readFile p)
        = (st.fs.makedirs (featPathOf featd rel).dropLast).readFile p
      from readFile_writeFile_ne hne]
    rfl

theorem f2fStep_ok_readFile_stable {fd featd : Path} {cnn : ConvNet} {n : Nat}
    {st : FSt} {rel : Path} {st1 : FSt}
    (h : f2fStep fd featd cnn n st rel = .ok st1) {q : Path}
    (hq : st.fs.pathExists q = true) :
    st1.fs.readFile q = st.fs.readFile q := by
  rcases f2fStep_ok_iff.mp h with ⟨_, rfl⟩ | ⟨hex, _, arr, _, rfl⟩
  · rfl
  · have hne : q ≠ featPathOf featd rel := by
      intro hpe
      rw [hpe] at hq
      rw [hq] at hex
      cases hex
    rw [show (((st.fs.makedirs (featPathOf featd rel).dropLast).writeFile
        (featPathOf featd rel) (Blob.npy arr)).readFile q)
        = (st.fs.makedirs (featPathOf featd rel).dropLast).readFile q
      from readFile_writeFile_ne hne]
    rfl

theorem pathExists_writeFile_self (fs : FS) (p : Path) (b : Blob) :
    (fs.writeFile p b).pathExists p = true := by
  apply (pathExists_iff _ _).mpr
  left
  exact mem_keys_writeFile.mpr (Or.inl rfl)

theorem f2fLoop_ok_readFile_stable {fd featd : Path} {cnn : ConvNet} {n : Nat}
    {st : FSt} {L : List Path} {t : FSt}
    (h : f2fLoop fd featd cnn n st L = .ok t) {q : Path}
    (hq : st.fs.pathExists q = true) :
    t.fs.readFile q = st.fs.readFile q := by
  induction L generalizing st with
  | nil =>
    injection h with h
    subst h
    rfl
  | cons r rest ih =>
    unfold f2fLoop at h
    cases hstep : f2fStep fd featd cnn n st r with
    | error ep =>
      rw [hstep] at h
      cases h
    | ok st1 =>
      rw [hstep] at h
      rw [ih h (f2fStep_ok_pathExists_mono hstep hq)]
      exact f2fStep_ok_readFile_stable hstep hq

theorem f2fStep_ok_sortedJpgNames {fd featd : Path} {cnn : ConvNet} {n : Nat}
    {st : FSt} {rel : Path} {st1 : FSt}
    (h : f2fStep fd featd cnn n st rel = .ok st1) (d : Path) :
    sortedJpgNames st1.fs d = sortedJpgNames st.fs d := by
  unfold sortedJpgNames
  rw [f2fStep_ok_jpgNames h]

theorem f2fLoop_saved {fd featd : Path} {cnn : ConvNet} {n : Nat} {st : FSt}
    {L : List Path} {t : FSt}
    (h : f2fLoop fd featd cnn n st L = .ok t) :
    ∀ rp ∈ t.reads, rp ∈ st.reads ∨
      (rp.1 ∈ L ∧
       rp.2 = (sortedJpgNames st.fs (fd ++ rp.1)).map (fun nm => fd ++ rp.1 ++ [nm]) ∧
       (sortedJpgNames st.fs (fd ++ rp.1)).length = n ∧
       ∃ arr, reshape2 n (cnnPredict cnn (rp.2.map (readImgD st.fs))) = .ok arr ∧
         t.fs.readFile (featPathOf featd rp.1) = some (.npy arr)) := by
  induction L generalizing st with
  | nil =>
    intro rp hrp
    injection h with h
    subst h
    exact Or.inl hrp
  | cons r rest ih =>
    intro rp hrp
    unfold f2fLoop at h
    cases hstep : f2fStep fd featd cnn n st r with
    | error ep =>
      rw [hstep] at h
      cases h
    | ok st1 =>
      rw [hstep] at h
      rcases ih h rp hrp with hin | ⟨hmem, hfps, hlen, arr, hre, hread⟩
      · rcases f2fStep_ok_iff.mp hstep with ⟨_, hst1⟩ | ⟨hexr, hlenr, arr, hrer, hst1⟩
        · subst hst1
          exact Or.inl hin
        · subst hst1
          rcases List.mem_append.mp hin with hold | hnew
          · exact Or.inl hold
          · rw [List.mem_singleton] at hnew
            subst hnew
            refine Or.inr ⟨List.mem_cons_self _ _, rfl, hlenr, arr, hrer, ?_⟩
            have hex1 : ((st.fs.makedirs (featPathOf featd r).dropLast).writeFile
                (featPathOf featd r) (Blob.npy arr)).pathExists
                  (featPathOf featd r) = true :=
              pathExists_writeFile_self _ _ _
            rw [f2fLoop_ok_readFile_stable h hex1]
            exact readFile_writeFile_self _ _ _
      · refine Or.inr ⟨List.mem_cons_of_mem r hmem, ?_, ?_, arr, ?_, hread⟩
        · rw [← f2fStep_ok_sortedJpgNames hstep]
          exact hfps
        · rw [← f2fStep_ok_sortedJpgNames hstep]
          exact hlen
        · rw [← hre]
          congr 1
          congr 1
          apply List.map_congr_left
          intro p hp
          apply readImgD_congr
          refine (f2fStep_ok_readFile_jpg hstep ?_).symm
          rw [hfps] at hp
          rcases List.mem_map.mp hp with ⟨nm, hnm, rfl⟩
          rw [getLastD_concat]
          exact sortedJpgNames_jpg hnm

theorem jpgNames_sub_canonical {fd : Path} {n : Nat} {fs : FS} {d : Path}
    (hInv : framesOnly fd n fs) (hd : d.length = fd.length + 3)
    (hdp : d.take fd.length = fd) :
    ∀ nm ∈ jpgNames fs d, nm ∈ (List.range' 1 n).map frameJpg := by
  intro nm h
  rcases mem_jpgNames.mp h with ⟨hkey, _⟩
  have hunder : underDir fd (d ++ [nm]) = true := by
    unfold underDir
    rw [Bool.and_eq_true]
    constructor
    · simp only [List.length_append, decide_eq_true_eq]
      omega
    · rw [List.take_append_of_le_length (by omega), hdp]
      simp
  rcases hInv _ hkey hunder with ⟨d2, i, heq, h1, h2, hlen2⟩
  have hl : d.length = d2.length := by omega
  rcases List.append_inj heq hl with ⟨_, hq2⟩
  have : nm = frameJpg i := by simpa using hq2
  rw [this]
  exact List.mem_map.mpr ⟨i, List.mem_range'.mpr ⟨i - 1, by omega, by omega⟩, rfl⟩

theorem v2fLoop_ok_proc_form {fd : Path} {n : Nat} {oT : Transcoder} {st : VSt}
    {L : List Path} {s : VSt}
    (h : v2fLoop fd n oT st L = .ok s) :
    ∀ vd ∈ s.proc, vd ∈ st.proc ∨
      (vd.2.length = fd.length + 3 ∧ vd.2.take fd.length = fd) := by
  induction L generalizing st with
  | nil =>
    injection h with h
    subst h
    exact fun vd hvd => Or.inl hvd
  | cons v vs ih =>
    unfold v2fLoop at h
    cases hstep : v2fStep fd n oT st v with
    | error e =>
      rw [hstep] at h
      cases h
    | ok st1 =>
      rw [hstep] at h
      intro vd hvd
      rcases ih h vd hvd with hin | hform
      · rcases v2fStep_ok_iff.mp hstep with ⟨d, hfd, _, _, rfl⟩
        rcases List.mem_append.mp hin with hold | hnew
        · exact Or.inl hold
        · rw [List.mem_singleton] at hnew
          subst hnew
          exact Or.inr (frameDirOfVideo_ok_form hfd)
      · exact Or.inr hform

theorem reshape2_ok_inv {n : Nat} {a arr : NpArr} (h : reshape2 n a = .ok arr) :
    arr = ⟨[n, a.data.length / n], a.data⟩ ∧ 0 < n := by
  unfold reshape2 at h
  split at h
  · rename_i hcond
    injection h with h
    exact ⟨h.symm, hcond.1⟩
  · cases h

theorem sortedJpgNames_canonical_of {fd : Path} {n : Nat} {fs : FS} {d : Path}
    (hInv : framesOnly fd n fs) (hd : d.length = fd.length + 3)
    (hdp : d.take fd.length = fd) (hn : n ≤ 999)
    (hcnt : countJpg fs d = n) :
    sortedJpgNames fs d = (List.range' 1 n).map frameJpg := by
  apply insSort_canonicalFrames hn
  have hsub := List.subperm_of_subset (jpgNames_nodup fs d)
    (jpgNames_sub_canonical hInv hd hdp)
  apply hsub.perm_of_length_le
  rw [List.length_map, List.length_range']
  exact le_of_eq hcnt.symm

/-- C4 (amended): after a successful video2frames run with well-formed
transcoding and nFramesNorm at most 999, every processed frame
directory lists its frames, in ascending lexicographic file-name order,
exactly as frame-001.jpg through frame-nnn.jpg — the temporal
extraction order — and every video a subsequent successful
frames2features run computes reads its frames in that temporal order
and saves the array whose row i holds the features of the i-th
extracted frame.  Beyond 999 frames the zero-padded pattern stops
agreeing with the lexicographic order: see the counterexample. -/
theorem C4_sorted_order
    {fs : FS} {vdir fd : Path} {n : Nat} {ncl : Option Nat} {oT : Transcoder}
    {s : VSt}
    (hrun : video2frames fs vdir fd n ncl oT = .ok s)
    (hn : n ≤ 999)
    (hwf1 : ∀ v ∈ globAvi fs vdir,
      4 ≤ v.length ∧ oT.durationMs v ≠ 0 ∧ oT.nFrames v = n)
    (hwf2 : ∀ p ∈ fs.files.map Prod.fst, underDir fd p = false) :
    (∀ vd ∈ s.proc, sortedJpgNames s.fs vd.2 = (List.range' 1 n).map frameJpg) ∧
    (∀ (featd : Path) (cnn : ConvNet) (ncl2 : Option Nat) (t : FSt),
      frames2features s.fs fd featd cnn n ncl2 = .ok t →
      (∀ x, (cnn.f x).length = cnn.m) →
      ∀ rp ∈ t.reads,
        rp.2 = (List.range' 1 n).map (fun i => fd ++ rp.1 ++ [frameJpg i]) ∧
        t.fs.readFile (featPathOf featd rp.1) = some (.npy ⟨[n, cnn.m],
          ((List.range' 1 n).map (fun i =>
            cnn.f (readImgD s.fs (fd ++ rp.1 ++ [frameJpg i])))).flatten⟩)) := by
  have hloop : v2fLoop fd n oT ⟨fs, 0, []⟩
      (restrictClasses ncl (globAvi fs vdir)) = .ok s := by
    unfold video2frames at hrun
    by_cases hex : fs.pathExists fd = true
    · rw [hex] at hrun
      cases hrun
    · rw [(by simpa using hex : fs.pathExists fd = false)] at hrun
      simpa using hrun
  have hInvS : framesOnly fd n s.fs := by
    rcases v2fLoop_ok_exists ⟨fs, 0, []⟩ (restrictClasses ncl (globAvi fs vdir))
      (framesOnly_of_clean hwf2)
      (fun v hv => hwf1 v (restrictClasses_subset v hv)) with ⟨s2, hs2, hInv2⟩
    rw [hloop] at hs2
    injection hs2 with hs2
    rw [hs2]
    exact hInv2
  have hcnts := v2fLoop_ok_counts hloop (by intro vd h2; cases h2)
  constructor
  · intro vd hvd
    rcases v2fLoop_ok_proc_form hloop vd hvd with hin | ⟨h1, h2⟩
    · cases hin
    · exact sortedJpgNames_canonical_of hInvS h1 h2 hn (hcnts vd hvd)
  · intro featd cnn ncl2 t hrunF hcnn rp hrp
    have hloopF : f2fLoop fd featd cnn n ⟨s.fs, 0, [], [], []⟩
        (restrictClasses ncl2 (glob3 s.fs fd)) = .ok t := by
      unfold frames2features at hrunF
      by_cases hex : s.fs.pathExists featd = true
      · rw [hex] at hrunF
        cases hrunF
      · rw [(by simpa using hex : s.fs.pathExists featd = false)] at hrunF
        simpa using hrunF
    rcases f2fLoop_saved hloopF rp hrp with hin | ⟨hmem, hfps, hlen, arr, hre, hread⟩
    · cases hin
    · have hrel3 : rp.1.length = 3 :=
        glob3_length (restrictClasses_subset _ hmem)
      have hd : (fd ++ rp.1).length = fd.length + 3 := by simp [hrel3]
      have hdp : (fd ++ rp.1).take fd.length = fd := List.take_left _ _
      have hcnt : countJpg s.fs (fd ++ rp.1) = n := by
        unfold countJpg
        unfold sortedJpgNames at hlen
        rw [← (insSort_perm strLeB (jpgNames s.fs (fd ++ rp.1))).length_eq]
        exact hlen
      have hsorted : sortedJpgNames s.fs (fd ++ rp.1) =
          (List.range' 1 n).map frameJpg :=
        sortedJpgNames_canonical_of hInvS hd hdp hn hcnt
      have hfps2 : rp.2 = (List.range' 1 n).map
          (fun i => fd ++ rp.1 ++ [frameJpg i]) := by
        rw [hfps, hsorted, List.map_map]
        rfl
      refine ⟨hfps2, ?_⟩
      rcases reshape2_ok_inv hre with ⟨harr, hnpos⟩
      have hdata : (cnnPredict cnn (rp.2.map (readImgD s.fs))).data =
          ((List.range' 1 n).map (fun i =>
            cnn.f (readImgD s.fs (fd ++ rp.1 ++ [frameJpg i])))).flatten := by
        show ((rp.2.map (readImgD s.fs)).map cnn.f).flatten = _
        rw [hfps2, List.map_map, List.map_map]
        rfl
      have hdlen : (cnnPredict cnn (rp.2.map (readImgD s.fs))).data.length
          = n * cnn.m := by
        rw [cnnPredict_data_length hcnn]
        rw [List.length_map, hfps2, List.length_map, List.length_range']
      have hshape : (cnnPredict cnn (rp.2.map (readImgD s.fs))).data.length / n
          = cnn.m := by
        rw [hdlen]
        exact Nat.mul_div_cancel_left _ hnpos
      rw [hread, harr, hshape, hdata]

theorem natDigits_1000 : natDigits 1000 = [1, 0, 0, 0] := by
  rw [natDigits, dif_neg (by norm_num), natDigits, dif_neg (by norm_num),
    natDigits, dif_neg (by norm_num), natDigits, dif_pos (by norm_num)]
  norm_num

theorem frameJpg_1000 : frameJpg 1000 = "frame-1000.jpg" := by
  unfold frameJpg pad3
  rw [if_neg (by norm_num), natDigits_1000]
  rfl

/-- Counterexample to C4 as stated: in a frame directory holding frames
number 999 and 1000, as a video2frames run with nFramesNorm of 1000
produces, the ascending lexicographic order frames2features reads in
puts frame-1000.jpg before frame-999.jpg, the reverse of the temporal
extraction order, because %03d stops zero-aligning beyond 999. -/
theorem C4_counterexample :
    sortedJpgNames cexFS ["d"] = [frameJpg 1000, frameJpg 999] ∧
    frameJpg 999 ≠ frameJpg 1000 := by
  have h1 : frameJpg 1000 = "frame-1000.jpg" := frameJpg_1000
  have h2 : frameJpg 999 = "frame-999.jpg" := rfl
  rw [h1, h2]
  exact ⟨by decide, by decide⟩

/-- Witness for the amended C4 at the fixture pipeline: the processed
frame directory lists frame-001.jpg then frame-002.jpg. -/
theorem C4_sorted_order_witness :
    sortedJpgNames (resVSt exRun1).fs (exFrameDir ++ ["train", "c1", "v1"])
      = (List.range' 1 2).map frameJpg := by
  have h : video2frames exFS0 exVideoDir exFrameDir 2 none exTrans
      = .ok (resVSt exRun1) := rfl
  exact (C4_sorted_order h (by decide) (by decide) (by decide)).1
    (["vids", "train", "c1", "v1.avi"], exFrameDir ++ ["train", "c1", "v1"])
    (by decide)

end Chalearn
